import Mathlib

/-!
Verification of the polyomino tiling solver (day 12 of the puzzle set):
shape geometry (rotations, reflections, normalization), placement
generation, the SAT-based exact-cover solver, and the backtracking
solver with lower-bound pruning.

The Rust source is embedded shallowly:
* machine integers (`usize`, `i32`) become `Nat` / `Int` (no arithmetic in
  the solver can overflow on the inputs the claims quantify over, and the
  source performs no wrapping arithmetic);
* `Vec` becomes `List`;
* the `HashSet` used to deduplicate shape orientations is modeled as
  `List.dedup` (hash iteration order is arbitrary in the source; every
  property below depends only on the underlying set);
* the external SAT solver (varisat) is modeled as a complete
  satisfiability check by exhaustive enumeration of assignments, per its
  contract: it returns a satisfying model iff the CNF formula is
  satisfiable;
* fallible functions returning anyhow `Result` become `Except String`.
-/

/-- Coordinates of one board / shape cell (`struct Coords { x: i32, y: i32 }`). -/
structure Coords where
  x : Int
  y : Int
deriving DecidableEq, Repr

/-- A shape: identifier plus a small grid of characters (`struct Shape`). -/
structure Shape where
  id : Nat
  grid : List (List Char)
deriving DecidableEq, Repr

/-- A problem space: board dimensions plus required instance counts per
shape id, indexed by position (`struct ProblemSpace`). -/
structure ProblemSpace where
  width : Nat
  height : Nat
  shape_counts : List Nat
deriving DecidableEq, Repr

/-- One candidate placement of a shape instance (`struct Placement`).
The Rust field `instance` is a Lean keyword and is rendered `inst`. -/
structure Placement where
  shape_id : Nat
  inst : Nat
  x : Int
  y : Int
  cells : List Coords
deriving DecidableEq, Repr, Inhabited

deriving instance DecidableEq for Except

/-- Indexed enumeration of a list starting at a given index, modelling
Rust's `iter().enumerate()` (with a starting offset for convenience). -/
def enumIdx {α : Type} : Nat → List α → List (Nat × α)
  | _, [] => []
  | i, a :: l => (i, a) :: enumIdx (i + 1) l

/-- `Shape::get_cells`: coordinates of the filled (`'#'`) cells of the grid,
row-major. -/
def Shape.get_cells (s : Shape) : List Coords :=
  (enumIdx 0 s.grid).flatMap fun yrow =>
    (enumIdx 0 yrow.2).filterMap fun xch =>
      if xch.2 = '#' then some ⟨(xch.1 : Int), (yrow.1 : Int)⟩ else none

/-- `Shape::rotate_90`: rotate a cell list by 90 degrees, `(x, y) ↦ (-y, x)`. -/
def Shape.rotate_90 (cells : List Coords) : List Coords :=
  cells.map fun c => ⟨-c.y, c.x⟩

/-- `Shape::flip_horizontal`: mirror a cell list, `(x, y) ↦ (-x, y)`. -/
def Shape.flip_horizontal (cells : List Coords) : List Coords :=
  cells.map fun c => ⟨-c.x, c.y⟩

/-- The row-major comparison key used by `normalize`'s
`sort_by_key(|c| (c.y, c.x))`, as a Boolean total preorder. -/
def coordLe (a b : Coords) : Bool :=
  decide (a.y < b.y ∨ (a.y = b.y ∧ a.x ≤ b.x))

/-- `Shape::normalize`: translate a nonempty cell list so the minimum x and
minimum y become 0, then sort row-major; the empty list maps to itself.
Rust's `sort_by_key` is a stable sort; it is modeled by the (stable,
structurally recursive) insertion sort, which computes the same list. -/
def Shape.normalize (cells : List Coords) : List Coords :=
  match cells with
  | [] => []
  | c :: rest =>
    let min_x := (rest.map (·.x)).foldl min c.x
    let min_y := (rest.map (·.y)).foldl min c.y
    ((c :: rest).map fun d => Coords.mk (d.x - min_x) (d.y - min_y)).insertionSort
      fun a b => coordLe a b = true

/-- Iterated `rotate_90`, modelling the source's in-place rotation loop. -/
def rot_iter : Nat → List Coords → List Coords
  | 0, cs => cs
  | n + 1, cs => Shape.rotate_90 (rot_iter n cs)

/-- `Shape::get_unique_transformations`: normalize the 4 rotations of the
base cells and the 4 rotations of the horizontal mirror, and deduplicate.
The source collects into a `HashSet`; the set is modeled as a
duplicate-free list. -/
def Shape.get_unique_transformations (s : Shape) : List (List Coords) :=
  let base := s.get_cells
  (((List.range 4).map fun k => Shape.normalize (rot_iter k base)) ++
    ((List.range 4).map fun k =>
      Shape.normalize (rot_iter k (Shape.flip_horizontal base)))).dedup

/-- `Shape::count_cells`: number of filled cells in the grid. -/
def Shape.count_cells (s : Shape) : Nat :=
  (s.grid.flatten).countP fun ch => ch == '#'

/-- Translation of an orientation's cell list to a board offset, the map
`|c| Coords { x: x + c.x, y: y + c.y }` appearing verbatim in both
`generate_placements` and `backtrack_optimized`. -/
def translate_cells (transform : List Coords) (x y : Nat) : List Coords :=
  transform.map fun c => ⟨(x : Int) + c.x, (y : Int) + c.y⟩

/-- The bounds check `c.x >= 0 && c.x < width && c.y >= 0 && c.y < height`
appearing verbatim in both `generate_placements` and
`backtrack_optimized`. -/
def in_bounds (width height : Nat) (c : Coords) : Bool :=
  decide (0 ≤ c.x ∧ c.x < (width : Int) ∧ 0 ≤ c.y ∧ c.y < (height : Int))

/-- `generate_placements`: for every distinct orientation and every board
offset, translate the orientation and keep the result iff every cell is in
bounds. -/
def generate_placements (shape : Shape) (inst : Nat) (width height : Nat) :
    List Placement :=
  shape.get_unique_transformations.flatMap fun transform =>
    (List.range height).flatMap fun y =>
      (List.range width).filterMap fun x =>
        let cells := translate_cells transform x y
        if cells.all (in_bounds width height) then
          some { shape_id := shape.id, inst := inst, x := (x : Int),
                 y := (y : Int), cells := cells }
        else none

/-- A CNF literal: variable index (position in the placement list) plus
polarity. The source allocates one varisat variable per generated
placement, in generation order; since generated placements are pairwise
distinct (proved below as all_placements_nodup), the source's
placement-to-variable map is faithfully modeled by the placement's index. -/
abbrev Lit := Nat × Bool

abbrev Clause := List Lit

/-- Truth value of a literal under an assignment (one Bool per variable). -/
def evalLit (a : List Bool) (l : Lit) : Bool :=
  if l.2 then a.getD l.1 false else !(a.getD l.1 false)

/-- A clause is satisfied iff some literal is true. -/
def evalClause (a : List Bool) (c : Clause) : Bool :=
  c.any (evalLit a)

/-- A CNF formula is satisfied iff every clause is. -/
def evalFormula (a : List Bool) (f : List Clause) : Bool :=
  f.all (evalClause a)

/-- All assignments to `n` variables. -/
def all_assignments : Nat → List (List Bool)
  | 0 => [[]]
  | n + 1 => (all_assignments n).flatMap fun a => [false :: a, true :: a]

/-- The placement pool of `solve_with_sat_verbose`: for every entry of
`shape_counts` (skipping zero counts) look up the shape by id — failing
with the source's "Shape not found" error when absent — and append the
generated placements of each instance, in order. -/
def build_placements (entries : List (Nat × Nat)) (shapes : List Shape)
    (width height : Nat) : Except String (List Placement) :=
  match entries with
  | [] => .ok []
  | (shape_idx, count) :: rest =>
    if count = 0 then build_placements rest shapes width height
    else
      match shapes.find? fun s => s.id == shape_idx with
      | none => .error ("Shape " ++ toString shape_idx ++ " not found")
      | some shape =>
        match build_placements rest shapes width height with
        | .error e => .error e
        | .ok ps =>
          .ok (((List.range count).flatMap fun inst =>
                generate_placements shape inst width height) ++ ps)

/-- Variable indices of the placements of one (shape id, instance) group. -/
def group_vars (aps : List Placement) (shape_idx inst : Nat) : List Nat :=
  ((enumIdx 0 aps).filter fun ip =>
    ip.2.shape_id == shape_idx && ip.2.inst == inst).map (fun ip => ip.1)

/-- All ordered pairs (earlier, later) of a list, modelling the source's
double loop `for i { for j in i+1.. }`. -/
def pairsOf {α : Type} : List α → List (α × α)
  | [] => []
  | a :: t => (t.map fun b => (a, b)) ++ pairsOf t

/-- The exactly-one-per-instance clauses: for each (shape id, instance)
group, one at-least-one clause over its variables plus pairwise
at-most-one clauses. -/
def instance_clauses (counts : List Nat) (aps : List Placement) : List Clause :=
  (enumIdx 0 counts).flatMap fun sc =>
    if sc.2 = 0 then []
    else
      (List.range sc.2).flatMap fun inst =>
        let vars := group_vars aps sc.1 inst
        (vars.map fun v => ((v, true) : Lit)) ::
          (pairsOf vars).map fun ij => [(ij.1, false), (ij.2, false)]

/-- Variable indices of the placements covering a given board cell. -/
def cell_vars (aps : List Placement) (cell : Coords) : List Nat :=
  ((enumIdx 0 aps).filter fun ip => decide (cell ∈ ip.2.cells)).map (fun ip => ip.1)

/-- The cell-disjointness clauses: for every covered board cell, pairwise
at-most-one clauses among the placements covering it. The source iterates
the cells of a `HashMap` in arbitrary order; the clause list is modeled in
first-appearance order, which satisfies the same assignments. -/
def cell_clauses (aps : List Placement) : List Clause :=
  ((aps.flatMap fun p => p.cells).dedup).flatMap fun cell =>
    (pairsOf (cell_vars aps cell)).map fun ij => [(ij.1, false), (ij.2, false)]

/-- The full CNF formula of `solve_with_sat_verbose`. -/
def sat_formula (counts : List Nat) (aps : List Placement) : List Clause :=
  instance_clauses counts aps ++ cell_clauses aps

/-- Model extraction: the placements whose variable is assigned true, in
variable order. -/
def extract_model (a : List Bool) (aps : List Placement) : List Placement :=
  ((enumIdx 0 aps).filter fun ip => a.getD ip.1 false).map (fun ip => ip.2)

/-- `solve_with_sat` (= `solve_with_sat_verbose` minus logging): build the
placement pool and CNF formula, run a complete SAT check, and on success
extract the true placements. -/
def solve_with_sat (shapes : List Shape) (space : ProblemSpace) :
    Except String (Option (List Placement)) :=
  match build_placements (enumIdx 0 space.shape_counts) shapes
      space.width space.height with
  | .error e => .error e
  | .ok aps =>
    match (all_assignments aps.length).find? fun a =>
        evalFormula a (sat_formula space.shape_counts aps) with
    | some a => .ok (some (extract_model a aps))
    | none => .ok none

/-- The board occupancy grid of `solve_with_backtracking`: `height` rows of
`width` cells, `none` = empty, `some piece_idx` = occupied. -/
abbrev Grid := List (List (Option Nat))

/-- Read one grid cell, `grid[c.y as usize][c.x as usize]` (used only on
in-bounds coordinates in the source, which guards every access). -/
def get_cell (grid : Grid) (c : Coords) : Option Nat :=
  (grid.getD c.y.toNat []).getD c.x.toNat none

/-- Write one grid cell (identity when out of range, as every source
access is guarded by the bounds check). -/
def set_cell (grid : Grid) (c : Coords) (v : Option Nat) : Grid :=
  grid.set c.y.toNat ((grid.getD c.y.toNat []).set c.x.toNat v)

/-- `can_place_cells`: all target cells currently empty. -/
def can_place_cells (cells : List Coords) (grid : Grid) : Bool :=
  cells.all fun c => (get_cell grid c).isNone

/-- `place_cells`: mark all target cells with the piece index. -/
def place_cells (cells : List Coords) (grid : Grid) (piece_id : Nat) : Grid :=
  cells.foldl (fun g c => set_cell g c (some piece_id)) grid

/-- `remove_cells`: clear all target cells. -/
def remove_cells (cells : List Coords) (grid : Grid) : Grid :=
  cells.foldl (fun g c => set_cell g c none) grid

/-- `count_empty_cells`: number of empty cells of the whole grid. -/
def count_empty_cells (grid : Grid) : Nat :=
  grid.flatten.countP fun cell => cell.isNone

/-- One piece to place: (shape id, instance index, shape). -/
abbrev Piece := Nat × Nat × Shape

/-- `count_remaining_cells`: total cell footprint of the pieces from the
current one on. The source passes the full list plus a start index; the
embedding passes the suffix `pieces[start_idx..]` directly. -/
def count_remaining_cells (pieces : List Piece) : Nat :=
  (pieces.map fun p => p.2.2.count_cells).sum

/-- The candidate enumeration order of the placement loops in
`backtrack_optimized`: every (orientation, y, x), transformations
outermost, x innermost. -/
def candidates (shape : Shape) (width height : Nat) :
    List (List Coords × Nat × Nat) :=
  shape.get_unique_transformations.flatMap fun t =>
    (List.range height).flatMap fun y =>
      (List.range width).map fun x => (t, y, x)

/-- The placement loops of `backtrack_optimized` over the current piece's
candidate list: translate, bounds-check, occupancy-check, place, recurse
via the continuation `recur` (the recursive `backtrack_optimized` call on
the remaining pieces, abstracted so that both functions are structurally
recursive), and on failure undo (pop the recorded placement, clear the
cells) and try the next candidate. -/
def try_candidates (recur : Grid → List Placement → Bool × Grid × List Placement)
    (cands : List (List Coords × Nat × Nat))
    (shape_id inst piece_idx : Nat) (grid : Grid)
    (width height : Nat) (solution : List Placement) :
    Bool × Grid × List Placement :=
  match cands with
  | [] => (false, grid, solution)
  | (transform, y, x) :: cs =>
    let cells := translate_cells transform x y
    if cells.all (in_bounds width height) && can_place_cells cells grid then
      let placement : Placement :=
        { shape_id := shape_id, inst := inst, x := (x : Int), y := (y : Int),
          cells := cells }
      match recur (place_cells cells grid piece_idx) (solution ++ [placement]) with
      | (true, g2, s2) => (true, g2, s2)
      | (false, g2, s2) =>
        try_candidates recur cs shape_id inst piece_idx
          (remove_cells cells g2) width height s2.dropLast
    else
      try_candidates recur cs shape_id inst piece_idx grid width height solution

/-- `backtrack_optimized`: the source mutates `grid` and `solution` and
returns a Bool; the embedding threads both explicitly, so the result is
(success flag, grid after the call, solution after the call). `pieces` is
the suffix of still-unplaced pieces, `piece_idx` the absolute index of the
current piece (the occupancy marker the source stores in the grid). -/
def backtrack_optimized (pieces : List Piece) (piece_idx : Nat) (grid : Grid)
    (width height : Nat) (solution : List Placement) :
    Bool × Grid × List Placement :=
  match pieces with
  | [] => (true, grid, solution)
  | piece :: rest =>
    let empty_cells := count_empty_cells grid
    let remaining_cells := count_remaining_cells (piece :: rest)
    if empty_cells < remaining_cells then (false, grid, solution)
    else
      try_candidates
        (fun g s => backtrack_optimized rest (piece_idx + 1) g width height s)
        (candidates piece.2.2 width height) piece.1 piece.2.1
        piece_idx grid width height solution

/-- The sort key of the piece ordering heuristic: ascending by number of
distinct orientations, then descending by cell count. -/
def piece_le (a b : Piece) : Bool :=
  let ka := (a.2.2.get_unique_transformations.length, -(a.2.2.count_cells : Int))
  let kb := (b.2.2.get_unique_transformations.length, -(b.2.2.count_cells : Int))
  decide (ka.1 < kb.1 ∨ (ka.1 = kb.1 ∧ ka.2 ≤ kb.2))

/-- The piece list of `solve_with_backtracking`: for every entry of
`shape_counts` and every instance below its count, look up the shape by
id — failing with the source's "Shape not found" error when absent (the
lookup sits inside the instance loop, so a zero count never triggers it). -/
def build_pieces (entries : List (Nat × Nat)) (shapes : List Shape) :
    Except String (List Piece) :=
  match entries with
  | [] => .ok []
  | (shape_idx, count) :: rest =>
    if count = 0 then build_pieces rest shapes
    else
      match shapes.find? fun s => s.id == shape_idx with
      | none => .error ("Shape " ++ toString shape_idx ++ " not found")
      | some shape =>
        match build_pieces rest shapes with
        | .error e => .error e
        | .ok ps =>
          .ok (((List.range count).map fun inst => (shape_idx, inst, shape)) ++ ps)

/-- `solve_with_backtracking`: build and sort the piece list (Rust's stable
`sort_by_key`, modeled by the stable insertion sort), start from an
all-empty grid and empty solution, and run the search. -/
def solve_with_backtracking (shapes : List Shape) (space : ProblemSpace) :
    Except String (Option (List Placement)) :=
  match build_pieces (enumIdx 0 space.shape_counts) shapes with
  | .error e => .error e
  | .ok pieces_to_place =>
    let sorted := pieces_to_place.insertionSort fun a b => piece_le a b = true
    let grid : Grid := List.replicate space.height (List.replicate space.width none)
    match backtrack_optimized sorted 0 grid space.width space.height [] with
    | (true, _, sol) => .ok (some sol)
    | (false, _, _) => .ok none

/-! ### Specification-level predicates (used only to state and prove the
verification results; they are not part of the embedded program) -/

/-- Every entry of `entries` with a nonzero count has a shape of that id. -/
def shapes_ok (shapes : List Shape) (entries : List (Nat × Nat)) : Prop :=
  ∀ e ∈ entries, e.2 ≠ 0 → (shapes.find? fun t => t.id == e.1).isSome = true

/-- All required (shape id, instance) pairs of a count-entry list. -/
def group_pairs (entries : List (Nat × Nat)) : List (Nat × Nat) :=
  entries.flatMap fun e => (List.range e.2).map fun inst => (e.1, inst)

/-- Two placements occupy no common board cell. -/
def cells_disjoint (p q : Placement) : Prop :=
  ∀ c ∈ p.cells, c ∉ q.cells

/-- The (shape id, instance) pairs of a solution, in order. -/
def ids_of (sol : List Placement) : List (Nat × Nat) :=
  sol.map fun p => (p.shape_id, p.inst)

/-- A valid solution for given counts: pairwise cell-disjoint placements,
as many placements as required instances, and exactly one placement per
required (shape id, instance) pair. -/
def ValidSolution (counts : List Nat) (sol : List Placement) : Prop :=
  sol.Pairwise cells_disjoint ∧
  sol.length = counts.sum ∧
  ∀ si inst : Nat, si < counts.length → inst < counts.getD si 0 →
    ∃! p, p ∈ sol ∧ p.shape_id = si ∧ p.inst = inst

/-- The grid has exactly `height` rows of `width` cells each. -/
def grid_ok (width height : Nat) (g : Grid) : Prop :=
  g.length = height ∧ ∀ row ∈ g, row.length = width

/-- `p` is a legal placement of the piece on a `width × height` board:
matching ids, cells obtained by translating one of the piece's shape's
orientations to an in-board offset, all cells in bounds. -/
def placement_ok (width height : Nat) (piece : Piece) (p : Placement) : Prop :=
  p.shape_id = piece.1 ∧ p.inst = piece.2.1 ∧
  ∃ t ∈ piece.2.2.get_unique_transformations, ∃ y, y < height ∧ ∃ x, x < width ∧
    p.x = (x : Int) ∧ p.y = (y : Int) ∧ p.cells = translate_cells t x y ∧
    p.cells.all (in_bounds width height) = true

/-- An abstract exact-cover tiling for a problem instance: a list of
placements, each generated for the shape its id refers to, exactly one per
required (shape id, instance) pair, pairwise cell-disjoint. Both solving
strategies succeed precisely when such a tiling exists. -/
def TilingOf (shapes : List Shape) (space : ProblemSpace)
    (sol : List Placement) : Prop :=
  (∀ p ∈ sol, ∃ shape, (shapes.find? fun t => t.id == p.shape_id) = some shape ∧
     p ∈ generate_placements shape p.inst space.width space.height) ∧
  (ids_of sol).Perm (group_pairs (enumIdx 0 space.shape_counts)) ∧
  sol.Pairwise cells_disjoint

/-! ### Library lemmas about the small helper functions -/

theorem enumIdx_length {α : Type} (i : Nat) (l : List α) :
    (enumIdx i l).length = l.length := by
  induction l generalizing i with
  | nil => rfl
  | cons a t ih => simp [enumIdx, ih]

theorem enumIdx_map_snd {α : Type} (i : Nat) (l : List α) :
    (enumIdx i l).map Prod.snd = l := by
  induction l generalizing i with
  | nil => rfl
  | cons a t ih => simp [enumIdx, ih]

theorem mem_enumIdx {α : Type} {i : Nat} {l : List α} {p : Nat × α} :
    p ∈ enumIdx i l ↔ ∃ k, ∃ h : k < l.length, p.1 = i + k ∧ p.2 = l[k] := by
  induction l generalizing i with
  | nil => simp [enumIdx]
  | cons a t ih =>
    simp only [enumIdx, List.mem_cons]
    constructor
    · intro h
      rcases h with h | h
      · subst h
        exact ⟨0, by simp, by simp, by simp⟩
      · rcases (ih (i := i + 1)).mp h with ⟨k, hk, h1, h2⟩
        refine ⟨k + 1, by simpa [Nat.succ_lt_succ_iff] using hk, by omega, by simpa using h2⟩
    · rintro ⟨k, hk, h1, h2⟩
      cases k with
      | zero =>
        left
        have hp1 : p.1 = i := by omega
        have hp2 : p.2 = a := by simpa using h2
        exact Prod.ext hp1 hp2
      | succ k =>
        right
        refine (ih (i := i + 1)).mpr ⟨k, ?_, by omega, ?_⟩
        · simpa [Nat.succ_lt_succ_iff] using hk
        · simpa using h2

theorem enumIdx_pairwise {α : Type} (i : Nat) (l : List α) :
    (enumIdx i l).Pairwise fun a b => a.1 < b.1 := by
  induction l generalizing i with
  | nil => simp [enumIdx]
  | cons a t ih =>
    refine List.Pairwise.cons ?_ (ih (i + 1))
    intro b hb
    rcases mem_enumIdx.mp hb with ⟨k, hk, h1, _⟩
    simp only []
    omega

theorem filter_enumIdx_map_snd_sublist {α : Type} (p : Nat × α → Bool) (i : Nat)
    (l : List α) : ((((enumIdx i l).filter p).map Prod.snd)).Sublist l := by
  induction l generalizing i with
  | nil => simp [enumIdx]
  | cons a t ih =>
    simp only [enumIdx, List.filter_cons]
    by_cases h : p (i, a)
    · simpa [h] using List.Sublist.cons₂ a (ih (i + 1))
    · simpa [h] using List.Sublist.cons a (ih (i + 1))

theorem pairsOf_mem_imp {α : Type} {l : List α} {a b : α}
    (h : (a, b) ∈ pairsOf l) : a ∈ l ∧ b ∈ l := by
  induction l with
  | nil => simp [pairsOf] at h
  | cons c t ih =>
    simp only [pairsOf, List.mem_append, List.mem_map] at h
    rcases h with ⟨d, hd, he⟩ | h
    · have h1 : c = a := congrArg Prod.fst he
      have h2 : d = b := congrArg Prod.snd he
      subst h1; subst h2
      exact ⟨by simp, by simp [hd]⟩
    · rcases ih h with ⟨h1, h2⟩
      exact ⟨by simp [h1], by simp [h2]⟩

theorem pairsOf_rel {α : Type} {R : α → α → Prop} {l : List α} {a b : α}
    (hl : l.Pairwise R) (h : (a, b) ∈ pairsOf l) : R a b := by
  induction l with
  | nil => simp [pairsOf] at h
  | cons c t ih =>
    rcases List.pairwise_cons.mp hl with ⟨hc, ht⟩
    simp only [pairsOf, List.mem_append, List.mem_map] at h
    rcases h with ⟨d, hd, he⟩ | h
    · have h1 : c = a := congrArg Prod.fst he
      have h2 : d = b := congrArg Prod.snd he
      subst h1; subst h2
      exact hc _ hd
    · exact ih ht h

theorem pairsOf_mem_of_mem {α : Type} {R : α → α → Prop} {l : List α}
    (hl : l.Pairwise R) (hR : ∀ x, ¬R x x)
    (hasym : ∀ x y, R x y → ¬R y x) {a b : α}
    (ha : a ∈ l) (hb : b ∈ l) (hab : R a b) : (a, b) ∈ pairsOf l := by
  induction l with
  | nil => simp at ha
  | cons c t ih =>
    rcases List.pairwise_cons.mp hl with ⟨hc, ht⟩
    simp only [pairsOf, List.mem_append, List.mem_map]
    rcases List.mem_cons.mp ha with hac | ha
    · rcases List.mem_cons.mp hb with hbc | hb
      · exact absurd hab (hbc ▸ hac ▸ hR c)
      · exact Or.inl ⟨b, hb, by rw [hac]⟩
    · rcases List.mem_cons.mp hb with hbc | hb
      · have hba : R b a := by rw [hbc]; exact hc a ha
        exact absurd hba (hasym a b hab)
      · exact Or.inr (ih ht ha hb)

theorem mem_all_assignments {n : Nat} {a : List Bool} :
    a ∈ all_assignments n ↔ a.length = n := by
  induction n generalizing a with
  | zero => cases a <;> simp [all_assignments]
  | succ n ih =>
    simp only [all_assignments, List.mem_flatMap, List.mem_cons,
      List.mem_singleton, List.not_mem_nil, or_false]
    constructor
    · rintro ⟨t, ht, h | h⟩ <;> subst h <;> simp [ih.mp ht]
    · intro h
      cases a with
      | nil => simp at h
      | cons b t =>
        refine ⟨t, ih.mpr (by simpa using h), ?_⟩
        cases b
        · exact Or.inl rfl
        · exact Or.inr rfl

/-! ### Geometry: lengths, duplicate-freeness, orientation sets -/

theorem enumIdx_nodup {α : Type} (i : Nat) (l : List α) : (enumIdx i l).Nodup := by
  refine (enumIdx_pairwise i l).imp ?_
  intro a b h heq
  rw [heq] at h
  omega

theorem coords_mk_injective (v : Int) :
    Function.Injective fun k : Nat => Coords.mk (k : Int) v := by
  intro a b h
  have := congrArg Coords.x h
  simp only at this
  omega

theorem row_cells_length (v j : Nat) (row : List Char) :
    ((enumIdx j row).filterMap fun xch =>
      if xch.2 = '#' then some (Coords.mk (xch.1 : Int) (v : Int)) else none).length
      = row.countP fun ch => ch == '#' := by
  induction row generalizing j with
  | nil => rfl
  | cons ch t ih =>
    simp only [enumIdx, List.filterMap_cons, List.countP_cons]
    by_cases h : ch = '#'
    · simp [h, ih]
    · simp [h, ih]

theorem get_cells_aux_length (i : Nat) (rows : List (List Char)) :
    ((enumIdx i rows).flatMap fun yrow =>
      (enumIdx 0 yrow.2).filterMap fun xch =>
        if xch.2 = '#' then some (Coords.mk (xch.1 : Int) (yrow.1 : Int)) else none).length
    = (rows.flatten).countP fun ch => ch == '#' := by
  induction rows generalizing i with
  | nil => rfl
  | cons r t ih =>
    simp only [enumIdx, List.flatMap_cons, List.length_append, List.flatten_cons,
      List.countP_append, row_cells_length, ih]

theorem get_cells_length (s : Shape) : s.get_cells.length = s.count_cells :=
  get_cells_aux_length 0 s.grid

theorem mem_row_cells {v j : Nat} {row : List Char} {c : Coords} :
    c ∈ ((enumIdx j row).filterMap fun xch =>
      if xch.2 = '#' then some (Coords.mk (xch.1 : Int) (v : Int)) else none) →
    c.y = (v : Int) := by
  intro h
  rcases List.mem_filterMap.mp h with ⟨a, _, ha⟩
  by_cases hc : a.2 = '#'
  · simp only [hc, if_pos] at ha
    cases ha
    rfl
  · simp [hc] at ha

theorem row_cells_nodup (v j : Nat) (row : List Char) :
    ((enumIdx j row).filterMap fun xch =>
      if xch.2 = '#' then some (Coords.mk (xch.1 : Int) (v : Int)) else none).Nodup := by
  refine List.Nodup.filterMap ?_ (enumIdx_nodup j row)
  intro a a' b hb hb'
  by_cases ha : a.2 = '#'
  · by_cases ha' : a'.2 = '#'
    · have hb1 : Coords.mk (a.1 : Int) (v : Int) = b := by
        simpa [ha, Option.mem_def] using hb
      have hb2 : Coords.mk (a'.1 : Int) (v : Int) = b := by
        simpa [ha', Option.mem_def] using hb'
      have hx := congrArg Coords.x (hb1.trans hb2.symm)
      simp only at hx
      have h1 : a.1 = a'.1 := by omega
      have h2 : a.2 = a'.2 := by rw [ha, ha']
      exact Prod.ext h1 h2
    · simp [ha', Option.mem_def] at hb'
  · simp [ha, Option.mem_def] at hb

theorem get_cells_nodup (s : Shape) : s.get_cells.Nodup := by
  unfold Shape.get_cells
  rw [List.nodup_flatMap]
  constructor
  · intro yrow _
    exact row_cells_nodup yrow.1 0 yrow.2
  · refine (enumIdx_pairwise 0 s.grid).imp ?_
    intro a b hab
    intro c hca hcb
    have h1 := mem_row_cells hca
    have h2 := mem_row_cells hcb
    rw [h1] at h2
    have : a.1 = b.1 := by omega
    omega

theorem rotate_90_length (cs : List Coords) :
    (Shape.rotate_90 cs).length = cs.length := List.length_map _ _

theorem flip_horizontal_length (cs : List Coords) :
    (Shape.flip_horizontal cs).length = cs.length := List.length_map _ _

theorem rot_iter_length (k : Nat) (cs : List Coords) :
    (rot_iter k cs).length = cs.length := by
  induction k with
  | zero => rfl
  | succ k ih => simp [rot_iter, rotate_90_length, ih]

theorem normalize_length (cs : List Coords) :
    (Shape.normalize cs).length = cs.length := by
  cases cs with
  | nil => rfl
  | cons c rest =>
    simp only [Shape.normalize]
    rw [List.length_insertionSort, List.length_map]

theorem rotate_90_nodup {cs : List Coords} (h : cs.Nodup) :
    (Shape.rotate_90 cs).Nodup := by
  refine List.Nodup.map ?_ h
  intro a b hab
  have h1 := congrArg Coords.x hab
  have h2 := congrArg Coords.y hab
  simp only at h1 h2
  cases a; cases b
  simp only at h1 h2
  simp only [Coords.mk.injEq]
  omega

theorem flip_horizontal_nodup {cs : List Coords} (h : cs.Nodup) :
    (Shape.flip_horizontal cs).Nodup := by
  refine List.Nodup.map ?_ h
  intro a b hab
  have h1 := congrArg Coords.x hab
  have h2 := congrArg Coords.y hab
  simp only at h1 h2
  cases a; cases b
  simp only at h1 h2
  simp only [Coords.mk.injEq]
  omega

theorem rot_iter_nodup (k : Nat) {cs : List Coords} (h : cs.Nodup) :
    (rot_iter k cs).Nodup := by
  induction k with
  | zero => exact h
  | succ k ih => exact rotate_90_nodup ih

theorem normalize_nodup {cs : List Coords} (h : cs.Nodup) :
    (Shape.normalize cs).Nodup := by
  cases cs with
  | nil => exact h
  | cons c rest =>
    simp only [Shape.normalize]
    refine (List.perm_insertionSort _ _).symm.nodup ?_
    refine List.Nodup.map ?_ h
    intro a b hab
    have h1 := congrArg Coords.x hab
    have h2 := congrArg Coords.y hab
    simp only at h1 h2
    cases a; cases b
    simp only at h1 h2
    simp only [Coords.mk.injEq]
    omega

theorem mem_gut {s : Shape} {t : List Coords} :
    t ∈ s.get_unique_transformations ↔
      ((∃ k, k < 4 ∧ t = Shape.normalize (rot_iter k s.get_cells)) ∨
       (∃ k, k < 4 ∧ t = Shape.normalize (rot_iter k (Shape.flip_horizontal s.get_cells)))) := by
  unfold Shape.get_unique_transformations
  rw [List.mem_dedup, List.mem_append]
  simp only [List.mem_map, List.mem_range]
  constructor
  · rintro (⟨k, hk, he⟩ | ⟨k, hk, he⟩)
    · exact Or.inl ⟨k, hk, he.symm⟩
    · exact Or.inr ⟨k, hk, he.symm⟩
  · rintro (⟨k, hk, he⟩ | ⟨k, hk, he⟩)
    · exact Or.inl ⟨k, hk, he.symm⟩
    · exact Or.inr ⟨k, hk, he.symm⟩

theorem gut_nodup (s : Shape) : s.get_unique_transformations.Nodup :=
  List.nodup_dedup _

theorem gut_length_le (s : Shape) : s.get_unique_transformations.length ≤ 8 := by
  have h := (List.dedup_sublist
    ((((List.range 4).map fun k => Shape.normalize (rot_iter k s.get_cells)) ++
      ((List.range 4).map fun k =>
        Shape.normalize (rot_iter k (Shape.flip_horizontal s.get_cells)))))).length_le
  simpa using h

theorem gut_length_pos (s : Shape) : 1 ≤ s.get_unique_transformations.length := by
  have hmem : Shape.normalize s.get_cells ∈ s.get_unique_transformations :=
    mem_gut.mpr (Or.inl ⟨0, by omega, rfl⟩)
  exact List.length_pos.mpr (List.ne_nil_of_mem hmem)

theorem gut_elem_length {s : Shape} {t : List Coords}
    (h : t ∈ s.get_unique_transformations) : t.length = s.count_cells := by
  rcases mem_gut.mp h with ⟨k, _, he⟩ | ⟨k, _, he⟩
  · rw [he, normalize_length, rot_iter_length, get_cells_length]
  · rw [he, normalize_length, rot_iter_length, flip_horizontal_length,
      get_cells_length]

theorem gut_elem_nodup {s : Shape} {t : List Coords}
    (h : t ∈ s.get_unique_transformations) : t.Nodup := by
  rcases mem_gut.mp h with ⟨k, _, he⟩ | ⟨k, _, he⟩
  · exact he ▸ normalize_nodup (rot_iter_nodup k (get_cells_nodup s))
  · exact he ▸ normalize_nodup
      (rot_iter_nodup k (flip_horizontal_nodup (get_cells_nodup s)))

theorem dedup_all_eq {α : Type} [DecidableEq α] {l : List α} {a : α}
    (h0 : l ≠ []) (h : ∀ x ∈ l, x = a) : l.dedup = [a] := by
  induction l with
  | nil => exact absurd rfl h0
  | cons b t ih =>
    have hb : b = a := h b (by simp)
    cases t with
    | nil => simp [hb]
    | cons c u =>
      have ht : (c :: u).dedup = [a] := ih (by simp) fun x hx => h x (by simp [hx])
      have hmem : b ∈ (c :: u).dedup := by rw [ht, hb]; simp
      rw [List.dedup_cons_of_mem (List.mem_dedup.mp hmem), ht]

theorem gut_of_no_cells {s : Shape} (h : s.count_cells = 0) :
    s.get_unique_transformations = [[]] := by
  have hc : s.get_cells = [] := by
    have := get_cells_length s
    rw [h] at this
    exact List.length_eq_zero.mp this
  refine dedup_all_eq (by simp) ?_
  intro x hx
  simp only [List.mem_append, List.mem_map, List.mem_range] at hx
  have hrot : ∀ k, rot_iter k ([] : List Coords) = [] := by
    intro k
    induction k with
    | zero => rfl
    | succ k ih => simp [rot_iter, ih, Shape.rotate_90]
  rcases hx with ⟨k, _, he⟩ | ⟨k, _, he⟩
  · rw [hc, hrot] at he
    exact he.symm
  · rw [hc] at he
    simp only [Shape.flip_horizontal, List.map_nil] at he
    rw [hrot] at he
    exact he.symm

/-! ### Placement generation -/

theorem translate_cells_length (t : List Coords) (x y : Nat) :
    (translate_cells t x y).length = t.length := List.length_map _ _

theorem mem_translate_cells {t : List Coords} {x y : Nat} {c : Coords} :
    c ∈ translate_cells t x y ↔
      ∃ d ∈ t, c = ⟨(x : Int) + d.x, (y : Int) + d.y⟩ := by
  unfold translate_cells
  simp only [List.mem_map]
  constructor
  · rintro ⟨d, hd, he⟩
    exact ⟨d, hd, he.symm⟩
  · rintro ⟨d, hd, he⟩
    exact ⟨d, hd, he.symm⟩

theorem translate_cells_nodup {t : List Coords} (x y : Nat) (h : t.Nodup) :
    (translate_cells t x y).Nodup := by
  refine List.Nodup.map ?_ h
  intro a b hab
  have h1 := congrArg Coords.x hab
  have h2 := congrArg Coords.y hab
  simp only at h1 h2
  cases a; cases b
  simp only at h1 h2
  simp only [Coords.mk.injEq]
  omega

theorem translate_cells_inj {x y : Nat} {t t' : List Coords}
    (h : translate_cells t x y = translate_cells t' x y) : t = t' := by
  unfold translate_cells at h
  refine List.map_injective_iff.mpr ?_ h
  intro a b hab
  have h1 := congrArg Coords.x hab
  have h2 := congrArg Coords.y hab
  simp only at h1 h2
  cases a; cases b
  simp only at h1 h2
  simp only [Coords.mk.injEq]
  omega

theorem mem_generate_placements {shape : Shape} {inst width height : Nat}
    {p : Placement} :
    p ∈ generate_placements shape inst width height ↔
      ∃ t ∈ shape.get_unique_transformations, ∃ y, y < height ∧ ∃ x, x < width ∧
        (translate_cells t x y).all (in_bounds width height) = true ∧
        p = { shape_id := shape.id, inst := inst, x := (x : Int), y := (y : Int),
              cells := translate_cells t x y } := by
  unfold generate_placements
  simp only [List.mem_flatMap, List.mem_filterMap, List.mem_range]
  constructor
  · rintro ⟨t, ht, y, hy, x, hx, he⟩
    by_cases hb : (translate_cells t x y).all (in_bounds width height) = true
    · rw [if_pos hb] at he
      exact ⟨t, ht, y, hy, x, hx, hb, (Option.some.injEq .. ▸ he :).symm⟩
    · rw [if_neg hb] at he
      exact absurd he (by simp)
  · rintro ⟨t, ht, y, hy, x, hx, hb, he⟩
    exact ⟨t, ht, y, hy, x, hx, by rw [if_pos hb, he]⟩

theorem generate_placements_fields {shape : Shape} {inst width height : Nat}
    {p : Placement} (h : p ∈ generate_placements shape inst width height) :
    p.shape_id = shape.id ∧ p.inst = inst ∧
    p.cells.length = shape.count_cells ∧ p.cells.Nodup ∧
    (∀ c ∈ p.cells, in_bounds width height c = true) := by
  rcases mem_generate_placements.mp h with ⟨t, ht, y, hy, x, hx, hb, he⟩
  subst he
  refine ⟨rfl, rfl, ?_, ?_, ?_⟩
  · rw [translate_cells_length, gut_elem_length ht]
  · exact translate_cells_nodup x y (gut_elem_nodup ht)
  · exact fun c hc => List.all_eq_true.mp hb c hc

theorem gen_inner_eq_some {shape : Shape} {inst width height : Nat}
    {t : List Coords} {x y : Nat} {p : Placement} :
    ((if (translate_cells t x y).all (in_bounds width height) = true then
        some { shape_id := shape.id, inst := inst, x := (x : Int), y := (y : Int),
               cells := translate_cells t x y }
      else none) = some p) ↔
    ((translate_cells t x y).all (in_bounds width height) = true ∧
     p = { shape_id := shape.id, inst := inst, x := (x : Int), y := (y : Int),
           cells := translate_cells t x y }) := by
  by_cases hb : (translate_cells t x y).all (in_bounds width height) = true
  · rw [if_pos hb]
    constructor
    · intro h
      exact ⟨hb, (Option.some.inj h).symm⟩
    · rintro ⟨-, h⟩
      rw [h]
  · rw [if_neg hb]
    constructor
    · intro h
      exact absurd h (by simp)
    · rintro ⟨h, -⟩
      exact absurd h hb

theorem generate_placements_nodup (shape : Shape) (inst width height : Nat) :
    (generate_placements shape inst width height).Nodup := by
  unfold generate_placements
  rw [List.nodup_flatMap]
  constructor
  · intro t _
    rw [List.nodup_flatMap]
    constructor
    · intro y _
      refine List.Nodup.filterMap ?_ (List.nodup_range width)
      intro x x' p hp hp'
      rw [Option.mem_def, gen_inner_eq_some] at hp hp'
      have hx : (x : Int) = (x' : Int) := by
        have h1 := congrArg Placement.x hp.2
        have h2 := congrArg Placement.x hp'.2
        simp only at h1 h2
        rw [h1] at h2
        exact h2
      omega
    · refine (List.nodup_range height).pairwise_of_forall_ne ?_
      intro y _ y' _ hyy'
      simp only [Function.onFun, List.disjoint_left]
      intro p hpy hpy'
      simp only [List.mem_filterMap] at hpy hpy'
      rcases hpy with ⟨x, _, hp⟩
      rcases hpy' with ⟨x', _, hp'⟩
      rw [gen_inner_eq_some] at hp hp'
      have hy : (y : Int) = (y' : Int) := by
        have h1 := congrArg Placement.y hp.2
        have h2 := congrArg Placement.y hp'.2
        simp only at h1 h2
        rw [h1] at h2
        exact h2
      exact hyy' (by omega)
  · refine (gut_nodup shape).pairwise_of_forall_ne ?_
    intro t _ t' _ htt'
    simp only [Function.onFun, List.disjoint_left]
    intro p hpt hpt'
    simp only [List.mem_flatMap, List.mem_filterMap, List.mem_range] at hpt hpt'
    rcases hpt with ⟨y, hy, x, hx, hp⟩
    rcases hpt' with ⟨y', hy', x', hx', hp'⟩
    rw [gen_inner_eq_some] at hp hp'
    have hxx : (x : Int) = (x' : Int) := by
      have h1 := congrArg Placement.x hp.2
      have h2 := congrArg Placement.x hp'.2
      simp only at h1 h2
      rw [h1] at h2
      exact h2
    have hyy : (y : Int) = (y' : Int) := by
      have h1 := congrArg Placement.y hp.2
      have h2 := congrArg Placement.y hp'.2
      simp only at h1 h2
      rw [h1] at h2
      exact h2
    have hx2 : x = x' := by omega
    have hy2 : y = y' := by omega
    subst hx2
    subst hy2
    have hcells : translate_cells t x y = translate_cells t' x y := by
      have h1 := congrArg Placement.cells hp.2
      have h2 := congrArg Placement.cells hp'.2
      simp only at h1 h2
      rw [h1] at h2
      exact h2
    exact htt' (translate_cells_inj hcells)

theorem filterMap_always_some_length {α β : Type} (f : α → Option β)
    (hf : ∀ a, (f a).isSome = true) (l : List α) :
    (l.filterMap f).length = l.length := by
  induction l with
  | nil => rfl
  | cons a t ih =>
    rcases ho : f a with - | b
    · exact absurd (hf a) (by simp [ho])
    · rw [List.filterMap_cons, ho]
      simp [ih]

theorem flatMap_const_length {α β : Type} (f : α → List β) (w : Nat)
    {l : List α} (h : ∀ a ∈ l, (f a).length = w) :
    (l.flatMap f).length = l.length * w := by
  induction l with
  | nil => simp
  | cons a t ih =>
    rw [List.flatMap_cons, List.length_append, h a (by simp),
      ih fun b hb => h b (by simp [hb])]
    simp [Nat.succ_mul]
    omega

theorem generate_placements_no_cells {shape : Shape} {inst width height : Nat}
    (h : shape.count_cells = 0) :
    (generate_placements shape inst width height).length = width * height ∧
    ∀ p ∈ generate_placements shape inst width height, p.cells = [] := by
  constructor
  · unfold generate_placements
    rw [gut_of_no_cells h]
    simp only [List.flatMap_cons, List.flatMap_nil, List.append_nil]
    rw [flatMap_const_length _ width fun y _ => by
        rw [filterMap_always_some_length _ fun x => by simp [translate_cells]]
        exact List.length_range width]
    rw [List.length_range]
    exact Nat.mul_comm height width
  · intro p hp
    rcases mem_generate_placements.mp hp with ⟨t, ht, y, hy, x, hx, hb, he⟩
    rw [gut_of_no_cells h] at ht
    have : t = [] := by simpa using ht
    subst this
    rw [he]
    rfl

theorem placement_ok_iff_mem_gen {width height : Nat} {si inst : Nat}
    {shape : Shape} (hid : shape.id = si) {p : Placement} :
    placement_ok width height (si, inst, shape) p ↔
      p ∈ generate_placements shape inst width height := by
  rw [mem_generate_placements]
  constructor
  · rintro ⟨h1, h2, t, ht, y, hy, x, hx, hpx, hpy, hcells, hall⟩
    refine ⟨t, ht, y, hy, x, hx, by rw [← hcells]; exact hall, ?_⟩
    cases p
    simp only at h1 h2 hpx hpy hcells
    simp [Placement.mk.injEq, h1, h2, hpx, hpy, hcells, hid]
  · rintro ⟨t, ht, y, hy, x, hx, hall, he⟩
    subst he
    exact ⟨hid, rfl, t, ht, y, hy, x, hx, rfl, rfl, rfl, hall⟩

theorem mem_group_pairs {entries : List (Nat × Nat)} {pr : Nat × Nat} :
    pr ∈ group_pairs entries ↔ ∃ e ∈ entries, pr.1 = e.1 ∧ pr.2 < e.2 := by
  unfold group_pairs
  simp only [List.mem_flatMap, List.mem_map, List.mem_range]
  constructor
  · rintro ⟨e, he, inst, hinst, hpr⟩
    refine ⟨e, he, ?_, ?_⟩
    · rw [← hpr]
    · have h2 : pr.2 = inst := by rw [← hpr]
      omega
  · rintro ⟨e, he, h1, h2⟩
    refine ⟨e, he, pr.2, h2, ?_⟩
    cases pr
    simp only at h1
    rw [h1]

theorem mem_group_pairs_enum {counts : List Nat} {pr : Nat × Nat} :
    pr ∈ group_pairs (enumIdx 0 counts) ↔
      pr.1 < counts.length ∧ pr.2 < counts.getD pr.1 0 := by
  rw [mem_group_pairs]
  constructor
  · rintro ⟨e, he, h1, h2⟩
    rcases mem_enumIdx.mp he with ⟨k, hk, he1, he2⟩
    refine ⟨by omega, ?_⟩
    rw [List.getD_eq_getElem?_getD]
    have : pr.1 = k := by omega
    rw [this, List.getElem?_eq_getElem hk]
    simp only [Option.getD_some]
    rw [← he2]
    omega
  · rintro ⟨h1, h2⟩
    refine ⟨(pr.1, counts.get ⟨pr.1, h1⟩), mem_enumIdx.mpr ⟨pr.1, h1, by omega, rfl⟩,
      rfl, ?_⟩
    rw [List.getD_eq_getElem?_getD, List.getElem?_eq_getElem h1] at h2
    simpa using h2

theorem group_pairs_nodup (counts : List Nat) :
    (group_pairs (enumIdx 0 counts)).Nodup := by
  unfold group_pairs
  rw [List.nodup_flatMap]
  constructor
  · intro e _
    refine List.Nodup.map ?_ (List.nodup_range e.2)
    intro a b hab
    exact congrArg Prod.snd hab
  · refine (enumIdx_pairwise 0 counts).imp_of_mem ?_
    intro a b _ _ hab
    simp only [Function.onFun, List.disjoint_left]
    intro pr hpra hprb
    simp only [List.mem_map, List.mem_range] at hpra hprb
    rcases hpra with ⟨i, _, hi⟩
    rcases hprb with ⟨j, _, hj⟩
    have h1 : pr.1 = a.1 := by rw [← hi]
    have h2 : pr.1 = b.1 := by rw [← hj]
    omega

theorem group_pairs_length (counts : List Nat) :
    (group_pairs (enumIdx 0 counts)).length = counts.sum := by
  unfold group_pairs
  rw [List.length_flatMap]
  simp only [Function.comp_def]
  have : ∀ l : List (Nat × Nat),
      (l.map fun e => ((List.range e.2).map fun inst => (e.1, inst)).length).sum
        = (l.map Prod.snd).sum := by
    intro l
    congr 1
    refine List.map_congr_left ?_
    intro e _
    simp
  rw [this, enumIdx_map_snd]

/-! ### The placement pool and the piece list -/

theorem find_shape_id {shapes : List Shape} {si : Nat} {shape : Shape}
    (h : (shapes.find? fun t => t.id == si) = some shape) : shape.id = si := by
  have := List.find?_some h
  simpa using this

theorem shapes_ok_cons {shapes : List Shape} {e : Nat × Nat}
    {rest : List (Nat × Nat)} :
    shapes_ok shapes (e :: rest) ↔
      (e.2 ≠ 0 → (shapes.find? fun t => t.id == e.1).isSome = true) ∧
        shapes_ok shapes rest := by
  unfold shapes_ok
  exact List.forall_mem_cons

theorem build_placements_ok_iff {entries : List (Nat × Nat)}
    {shapes : List Shape} {width height : Nat} :
    (∃ aps, build_placements entries shapes width height = .ok aps) ↔
      shapes_ok shapes entries := by
  induction entries with
  | nil =>
    simp only [build_placements]
    exact ⟨fun _ => by simp [shapes_ok], fun _ => ⟨[], rfl⟩⟩
  | cons e rest ih =>
    obtain ⟨si, c⟩ := e
    rw [shapes_ok_cons]
    by_cases hc : c = 0
    · subst hc
      have he : build_placements ((si, 0) :: rest) shapes width height
          = build_placements rest shapes width height := rfl
      rw [he, ih]
      simp
    · simp only [build_placements, if_neg hc]
      rcases hfind : shapes.find? fun t => t.id == si with - | shape
      · simp only [hfind]
        constructor
        · rintro ⟨aps, h⟩
          exact absurd h (by simp)
        · rintro ⟨h1, -⟩
          exact absurd (h1 hc) (by simp)
      · simp only [hfind]
        rcases hrest : build_placements rest shapes width height with e' | ps
        · constructor
          · rintro ⟨aps, h⟩
            exact absurd h (by simp)
          · rintro ⟨-, h2⟩
            rcases ih.mpr h2 with ⟨aps, h⟩
            rw [h] at hrest
            exact absurd hrest (by simp)
        · constructor
          · rintro -
            exact ⟨fun _ => rfl, ih.mp ⟨ps, hrest⟩⟩
          · rintro -
            exact ⟨_, rfl⟩

theorem build_pieces_ok_iff {entries : List (Nat × Nat)} {shapes : List Shape} :
    (∃ pcs, build_pieces entries shapes = .ok pcs) ↔ shapes_ok shapes entries := by
  induction entries with
  | nil =>
    simp only [build_pieces]
    exact ⟨fun _ => by simp [shapes_ok], fun _ => ⟨[], rfl⟩⟩
  | cons e rest ih =>
    obtain ⟨si, c⟩ := e
    rw [shapes_ok_cons]
    by_cases hc : c = 0
    · subst hc
      have he : build_pieces ((si, 0) :: rest) shapes
          = build_pieces rest shapes := rfl
      rw [he, ih]
      simp
    · simp only [build_pieces, if_neg hc]
      rcases hfind : shapes.find? fun t => t.id == si with - | shape
      · simp only [hfind]
        constructor
        · rintro ⟨pcs, h⟩
          exact absurd h (by simp)
        · rintro ⟨h1, -⟩
          exact absurd (h1 hc) (by simp)
      · simp only [hfind]
        rcases hrest : build_pieces rest shapes with e' | ps
        · constructor
          · rintro ⟨pcs, h⟩
            exact absurd h (by simp)
          · rintro ⟨-, h2⟩
            rcases ih.mpr h2 with ⟨pcs, h⟩
            rw [h] at hrest
            exact absurd hrest (by simp)
        · constructor
          · rintro -
            exact ⟨fun _ => rfl, ih.mp ⟨ps, hrest⟩⟩
          · rintro -
            exact ⟨_, rfl⟩

theorem mem_build_placements {entries : List (Nat × Nat)} {shapes : List Shape}
    {width height : Nat} {aps : List Placement}
    (hb : build_placements entries shapes width height = .ok aps) {p : Placement} :
    p ∈ aps ↔ ∃ e ∈ entries, e.2 ≠ 0 ∧ ∃ shape,
      (shapes.find? fun t => t.id == e.1) = some shape ∧
      ∃ inst, inst < e.2 ∧ p ∈ generate_placements shape inst width height := by
  induction entries generalizing aps with
  | nil =>
    have : aps = [] := by
      have : (Except.ok [] : Except String (List Placement)) = .ok aps := hb
      exact (Except.ok.inj this).symm
    subst this
    simp
  | cons e rest ih =>
    obtain ⟨si, c⟩ := e
    by_cases hc : c = 0
    · subst hc
      have he : build_placements ((si, 0) :: rest) shapes width height
          = build_placements rest shapes width height := rfl
      rw [he] at hb
      rw [ih hb]
      constructor
      · rintro ⟨e, he1, he2⟩
        exact ⟨e, by simp [he1], he2⟩
      · rintro ⟨e, he1, hne, hrest⟩
        rcases List.mem_cons.mp he1 with heq | he1
        · subst heq
          simp at hne
        · exact ⟨e, he1, hne, hrest⟩
    · simp only [build_placements, if_neg hc] at hb
      rcases hfind : shapes.find? fun t => t.id == si with - | shape
      · rw [hfind] at hb
        exact absurd hb (by simp)
      · rw [hfind] at hb
        rcases hrest : build_placements rest shapes width height with e' | ps
        · rw [hrest] at hb
          exact absurd hb (by simp)
        · rw [hrest] at hb
          have haps : aps = ((List.range c).flatMap fun inst =>
              generate_placements shape inst width height) ++ ps :=
            (Except.ok.inj hb).symm
          subst haps
          rw [List.mem_append, List.mem_flatMap]
          constructor
          · rintro (⟨inst, hinst, hp⟩ | hp)
            · exact ⟨(si, c), by simp, hc, shape, hfind, inst,
                by simpa using hinst, hp⟩
            · rcases (ih hrest).mp hp with ⟨e, he1, hne, shape', hfind', inst, hinst, hp'⟩
              exact ⟨e, by simp [he1], hne, shape', hfind', inst, hinst, hp'⟩
          · rintro ⟨e, he1, hne, shape', hfind', inst, hinst, hp'⟩
            rcases List.mem_cons.mp he1 with heq | he1
            · subst heq
              left
              simp only at hfind'
              rw [hfind] at hfind'
              refine ⟨inst, by simpa using hinst, ?_⟩
              rw [Option.some.inj hfind']
              exact hp'
            · right
              exact (ih hrest).mpr ⟨e, he1, hne, shape', hfind', inst, hinst, hp'⟩

theorem build_placements_nodup {entries : List (Nat × Nat)} {shapes : List Shape}
    {width height : Nat} {aps : List Placement}
    (hpw : entries.Pairwise fun a b => a.1 ≠ b.1)
    (hb : build_placements entries shapes width height = .ok aps) :
    aps.Nodup := by
  induction entries generalizing aps with
  | nil =>
    have : aps = [] := (Except.ok.inj hb).symm
    subst this
    simp
  | cons e rest ih =>
    obtain ⟨si, c⟩ := e
    rcases List.pairwise_cons.mp hpw with ⟨hhead, htail⟩
    by_cases hc : c = 0
    · subst hc
      have he : build_placements ((si, 0) :: rest) shapes width height
          = build_placements rest shapes width height := rfl
      rw [he] at hb
      exact ih htail hb
    · simp only [build_placements, if_neg hc] at hb
      rcases hfind : shapes.find? fun t => t.id == si with - | shape
      · rw [hfind] at hb
        exact absurd hb (by simp)
      · rw [hfind] at hb
        rcases hrest : build_placements rest shapes width height with e' | ps
        · rw [hrest] at hb
          exact absurd hb (by simp)
        · rw [hrest] at hb
          have haps : aps = ((List.range c).flatMap fun inst =>
              generate_placements shape inst width height) ++ ps :=
            (Except.ok.inj hb).symm
          subst haps
          refine List.Nodup.append ?_ (ih htail hrest) ?_
          · rw [List.nodup_flatMap]
            refine ⟨fun inst _ => generate_placements_nodup shape inst width height, ?_⟩
            refine (List.nodup_range c).pairwise_of_forall_ne ?_
            intro i _ j _ hij
            simp only [Function.onFun, List.disjoint_left]
            intro p hpi hpj
            have h1 := (generate_placements_fields hpi).2.1
            have h2 := (generate_placements_fields hpj).2.1
            rw [h1] at h2
            exact hij h2
          · simp only [List.disjoint_left, List.mem_flatMap, List.mem_range]
            rintro p ⟨inst, _, hp⟩ hps
            have hid1 : p.shape_id = si := by
              rw [(generate_placements_fields hp).1, find_shape_id hfind]
            rcases (mem_build_placements hrest).mp hps with
              ⟨e, he1, -, shape', hfind', inst', -, hp'⟩
            have hid2 : p.shape_id = e.1 := by
              rw [(generate_placements_fields hp').1, find_shape_id hfind']
            exact hhead e he1 (by rw [← hid1, hid2])

theorem build_pieces_ids {entries : List (Nat × Nat)} {shapes : List Shape}
    {pcs : List Piece} (hb : build_pieces entries shapes = .ok pcs) :
    pcs.map (fun pc => (pc.1, pc.2.1)) = group_pairs entries := by
  induction entries generalizing pcs with
  | nil =>
    have : pcs = [] := (Except.ok.inj hb).symm
    subst this
    rfl
  | cons e rest ih =>
    obtain ⟨si, c⟩ := e
    by_cases hc : c = 0
    · subst hc
      have he : build_pieces ((si, 0) :: rest) shapes
          = build_pieces rest shapes := rfl
      rw [he] at hb
      rw [ih hb]
      simp [group_pairs]
    · simp only [build_pieces, if_neg hc] at hb
      rcases hfind : shapes.find? fun t => t.id == si with - | shape
      · rw [hfind] at hb
        exact absurd hb (by simp)
      · rw [hfind] at hb
        rcases hrest : build_pieces rest shapes with e' | ps
        · rw [hrest] at hb
          exact absurd hb (by simp)
        · rw [hrest] at hb
          have hpcs : pcs = ((List.range c).map fun inst => (si, inst, shape)) ++ ps :=
            (Except.ok.inj hb).symm
          subst hpcs
          rw [List.map_append, ih hrest]
          simp only [group_pairs, List.flatMap_cons, List.map_map]
          rfl

theorem build_pieces_find {entries : List (Nat × Nat)} {shapes : List Shape}
    {pcs : List Piece} (hb : build_pieces entries shapes = .ok pcs) :
    ∀ pc ∈ pcs, (shapes.find? fun t => t.id == pc.1) = some pc.2.2 := by
  induction entries generalizing pcs with
  | nil =>
    have : pcs = [] := (Except.ok.inj hb).symm
    subst this
    simp
  | cons e rest ih =>
    obtain ⟨si, c⟩ := e
    by_cases hc : c = 0
    · subst hc
      have he : build_pieces ((si, 0) :: rest) shapes
          = build_pieces rest shapes := rfl
      rw [he] at hb
      exact ih hb
    · simp only [build_pieces, if_neg hc] at hb
      rcases hfind : shapes.find? fun t => t.id == si with - | shape
      · rw [hfind] at hb
        exact absurd hb (by simp)
      · rw [hfind] at hb
        rcases hrest : build_pieces rest shapes with e' | ps
        · rw [hrest] at hb
          exact absurd hb (by simp)
        · rw [hrest] at hb
          have hpcs : pcs = ((List.range c).map fun inst => (si, inst, shape)) ++ ps :=
            (Except.ok.inj hb).symm
          subst hpcs
          intro pc hpc
          rcases List.mem_append.mp hpc with hpc | hpc
          · rcases List.mem_map.mp hpc with ⟨inst, -, hpc⟩
            rw [← hpc]
            exact hfind
          · exact ih hrest pc hpc

/-! ### The CNF encoding -/

theorem mem_group_vars {aps : List Placement} {si inst i : Nat} :
    i ∈ group_vars aps si inst ↔
      ∃ h : i < aps.length, aps[i].shape_id = si ∧ aps[i].inst = inst := by
  unfold group_vars
  simp only [List.mem_map, List.mem_filter]
  constructor
  · rintro ⟨ip, ⟨hmem, hpred⟩, hfst⟩
    rcases mem_enumIdx.mp hmem with ⟨k, hk, h1, h2⟩
    have hik : i = k := by omega
    subst hik
    rw [h2] at hpred
    simp only [Bool.and_eq_true, beq_iff_eq] at hpred
    exact ⟨hk, hpred.1, hpred.2⟩
  · rintro ⟨h, h1, h2⟩
    exact ⟨(i, aps[i]), ⟨mem_enumIdx.mpr ⟨i, h, by omega, rfl⟩,
      by simp [h1, h2]⟩, rfl⟩

theorem group_vars_pairwise (aps : List Placement) (si inst : Nat) :
    (group_vars aps si inst).Pairwise (· < ·) := by
  unfold group_vars
  rw [List.pairwise_map]
  exact (enumIdx_pairwise 0 aps).sublist (List.filter_sublist _)

theorem mem_cell_vars {aps : List Placement} {cell : Coords} {i : Nat} :
    i ∈ cell_vars aps cell ↔
      ∃ h : i < aps.length, cell ∈ aps[i].cells := by
  unfold cell_vars
  simp only [List.mem_map, List.mem_filter]
  constructor
  · rintro ⟨ip, ⟨hmem, hpred⟩, hfst⟩
    rcases mem_enumIdx.mp hmem with ⟨k, hk, h1, h2⟩
    have hik : i = k := by omega
    subst hik
    rw [h2] at hpred
    simp only [decide_eq_true_eq] at hpred
    exact ⟨hk, hpred⟩
  · rintro ⟨h, h1⟩
    exact ⟨(i, aps[i]), ⟨mem_enumIdx.mpr ⟨i, h, by omega, rfl⟩,
      by simp [h1]⟩, rfl⟩

theorem cell_vars_pairwise (aps : List Placement) (cell : Coords) :
    (cell_vars aps cell).Pairwise (· < ·) := by
  unfold cell_vars
  rw [List.pairwise_map]
  exact (enumIdx_pairwise 0 aps).sublist (List.filter_sublist _)

theorem mem_instance_clauses {counts : List Nat} {aps : List Placement}
    {cl : Clause} :
    cl ∈ instance_clauses counts aps ↔
      ∃ e ∈ enumIdx 0 counts, e.2 ≠ 0 ∧ ∃ inst, inst < e.2 ∧
        (cl = ((group_vars aps e.1 inst).map fun v => ((v, true) : Lit)) ∨
         ∃ ij ∈ pairsOf (group_vars aps e.1 inst),
           cl = [(ij.1, false), (ij.2, false)]) := by
  unfold instance_clauses
  simp only [List.mem_flatMap]
  constructor
  · rintro ⟨e, he, hcl⟩
    by_cases h0 : e.2 = 0
    · rw [if_pos h0] at hcl
      simp at hcl
    · rw [if_neg h0] at hcl
      simp only [List.mem_flatMap, List.mem_range] at hcl
      rcases hcl with ⟨inst, hinst, hcl⟩
      rcases List.mem_cons.mp hcl with hcl | hcl
      · exact ⟨e, he, h0, inst, hinst, Or.inl hcl⟩
      · rcases List.mem_map.mp hcl with ⟨ij, hij, hcl⟩
        exact ⟨e, he, h0, inst, hinst, Or.inr ⟨ij, hij, hcl.symm⟩⟩
  · rintro ⟨e, he, h0, inst, hinst, hcl⟩
    refine ⟨e, he, ?_⟩
    rw [if_neg h0]
    simp only [List.mem_flatMap, List.mem_range]
    refine ⟨inst, hinst, ?_⟩
    rcases hcl with hcl | ⟨ij, hij, hcl⟩
    · exact List.mem_cons.mpr (Or.inl hcl)
    · exact List.mem_cons.mpr (Or.inr (List.mem_map.mpr ⟨ij, hij, hcl.symm⟩))

theorem mem_cell_clauses {aps : List Placement} {cl : Clause} :
    cl ∈ cell_clauses aps ↔
      ∃ cell ∈ (aps.flatMap fun p => p.cells).dedup,
        ∃ ij ∈ pairsOf (cell_vars aps cell),
          cl = [(ij.1, false), (ij.2, false)] := by
  unfold cell_clauses
  simp only [List.mem_flatMap, List.mem_map]
  constructor
  · rintro ⟨cell, hcell, ij, hij, hcl⟩
    exact ⟨cell, hcell, ij, hij, hcl.symm⟩
  · rintro ⟨cell, hcell, ij, hij, hcl⟩
    exact ⟨cell, hcell, ij, hij, hcl.symm⟩

theorem evalFormula_forall {a : List Bool} {f : List Clause} :
    evalFormula a f = true ↔ ∀ cl ∈ f, evalClause a cl = true := by
  unfold evalFormula
  exact List.all_eq_true

theorem evalClause_neg_pair {a : List Bool} {i j : Nat} :
    evalClause a [(i, false), (j, false)] = true ↔
      (a.getD i false = false ∨ a.getD j false = false) := by
  simp [evalClause, evalLit]

theorem evalClause_pos_list {a : List Bool} {vars : List Nat} :
    evalClause a (vars.map fun v => ((v, true) : Lit)) = true ↔
      ∃ v ∈ vars, a.getD v false = true := by
  simp [evalClause, evalLit, List.any_map, List.any_eq_true, Function.comp_def]

theorem sat_formula_mem_inst {counts : List Nat} {aps : List Placement}
    {cl : Clause} (h : cl ∈ instance_clauses counts aps) :
    cl ∈ sat_formula counts aps := List.mem_append.mpr (Or.inl h)

theorem sat_formula_mem_cell {counts : List Nat} {aps : List Placement}
    {cl : Clause} (h : cl ∈ cell_clauses aps) :
    cl ∈ sat_formula counts aps := List.mem_append.mpr (Or.inr h)

theorem sat_alo {counts : List Nat} {aps : List Placement} {a : List Bool}
    (hsat : evalFormula a (sat_formula counts aps) = true)
    {e : Nat × Nat} (he : e ∈ enumIdx 0 counts) (hne : e.2 ≠ 0)
    {inst : Nat} (hinst : inst < e.2) :
    ∃ i, ∃ h : i < aps.length,
      aps[i].shape_id = e.1 ∧ aps[i].inst = inst ∧ a.getD i false = true := by
  have hcl : ((group_vars aps e.1 inst).map fun v => ((v, true) : Lit)) ∈
      sat_formula counts aps :=
    sat_formula_mem_inst (mem_instance_clauses.mpr ⟨e, he, hne, inst, hinst, Or.inl rfl⟩)
  have := evalClause_pos_list.mp (evalFormula_forall.mp hsat _ hcl)
  rcases this with ⟨v, hv, hav⟩
  rcases mem_group_vars.mp hv with ⟨h, h1, h2⟩
  exact ⟨v, h, h1, h2, hav⟩

theorem sat_amo_lt {counts : List Nat} {aps : List Placement} {a : List Bool}
    (hsat : evalFormula a (sat_formula counts aps) = true)
    {e : Nat × Nat} (he : e ∈ enumIdx 0 counts) (hne : e.2 ≠ 0)
    {inst : Nat} (hinst : inst < e.2)
    {i j : Nat} (hi : i < aps.length) (hj : j < aps.length) (hij : i < j)
    (hidi1 : aps[i].shape_id = e.1) (hidi2 : aps[i].inst = inst)
    (hidj1 : aps[j].shape_id = e.1) (hidj2 : aps[j].inst = inst)
    (hai : a.getD i false = true) (haj : a.getD j false = true) : False := by
  have hmi : i ∈ group_vars aps e.1 inst := mem_group_vars.mpr ⟨hi, hidi1, hidi2⟩
  have hmj : j ∈ group_vars aps e.1 inst := mem_group_vars.mpr ⟨hj, hidj1, hidj2⟩
  have hpair : (i, j) ∈ pairsOf (group_vars aps e.1 inst) :=
    pairsOf_mem_of_mem (group_vars_pairwise aps e.1 inst)
      (fun x => Nat.lt_irrefl x) (fun x y h1 h2 => Nat.lt_irrefl x (h1.trans h2))
      hmi hmj hij
  have hcl : ([(i, false), (j, false)] : Clause) ∈ sat_formula counts aps :=
    sat_formula_mem_inst (mem_instance_clauses.mpr
      ⟨e, he, hne, inst, hinst, Or.inr ⟨(i, j), hpair, rfl⟩⟩)
  have := evalClause_neg_pair.mp (evalFormula_forall.mp hsat _ hcl)
  rcases this with h | h
  · rw [hai] at h
    exact Bool.noConfusion h
  · rw [haj] at h
    exact Bool.noConfusion h

theorem sat_amo {counts : List Nat} {aps : List Placement} {a : List Bool}
    (hsat : evalFormula a (sat_formula counts aps) = true)
    {e : Nat × Nat} (he : e ∈ enumIdx 0 counts) (hne : e.2 ≠ 0)
    {inst : Nat} (hinst : inst < e.2)
    {i j : Nat} (hi : i < aps.length) (hj : j < aps.length) (hij : i ≠ j)
    (hidi1 : aps[i].shape_id = e.1) (hidi2 : aps[i].inst = inst)
    (hidj1 : aps[j].shape_id = e.1) (hidj2 : aps[j].inst = inst)
    (hai : a.getD i false = true) (haj : a.getD j false = true) : False := by
  rcases Nat.lt_or_ge i j with h | h
  · exact sat_amo_lt hsat he hne hinst hi hj h hidi1 hidi2 hidj1 hidj2 hai haj
  · have hlt : j < i := by omega
    exact sat_amo_lt hsat he hne hinst hj hi hlt hidj1 hidj2 hidi1 hidi2 haj hai

theorem sat_cell_lt {counts : List Nat} {aps : List Placement} {a : List Bool}
    (hsat : evalFormula a (sat_formula counts aps) = true)
    {i j : Nat} (hi : i < aps.length) (hj : j < aps.length) (hij : i < j)
    {c : Coords} (hci : c ∈ aps[i].cells) (hcj : c ∈ aps[j].cells)
    (hai : a.getD i false = true) (haj : a.getD j false = true) : False := by
  have hcdedup : c ∈ (aps.flatMap fun p => p.cells).dedup :=
    List.mem_dedup.mpr (List.mem_flatMap.mpr ⟨aps[i], List.getElem_mem hi, hci⟩)
  have hmi : i ∈ cell_vars aps c := mem_cell_vars.mpr ⟨hi, hci⟩
  have hmj : j ∈ cell_vars aps c := mem_cell_vars.mpr ⟨hj, hcj⟩
  have hpair : (i, j) ∈ pairsOf (cell_vars aps c) :=
    pairsOf_mem_of_mem (cell_vars_pairwise aps c)
      (fun x => Nat.lt_irrefl x) (fun x y h1 h2 => Nat.lt_irrefl x (h1.trans h2))
      hmi hmj hij
  have hcl : ([(i, false), (j, false)] : Clause) ∈ sat_formula counts aps :=
    sat_formula_mem_cell (mem_cell_clauses.mpr ⟨c, hcdedup, (i, j), hpair, rfl⟩)
  have := evalClause_neg_pair.mp (evalFormula_forall.mp hsat _ hcl)
  rcases this with h | h
  · rw [hai] at h
    exact Bool.noConfusion h
  · rw [haj] at h
    exact Bool.noConfusion h

theorem sat_cell {counts : List Nat} {aps : List Placement} {a : List Bool}
    (hsat : evalFormula a (sat_formula counts aps) = true)
    {i j : Nat} (hi : i < aps.length) (hj : j < aps.length) (hij : i ≠ j)
    {c : Coords} (hci : c ∈ aps[i].cells) (hcj : c ∈ aps[j].cells)
    (hai : a.getD i false = true) (haj : a.getD j false = true) : False := by
  rcases Nat.lt_or_ge i j with h | h
  · exact sat_cell_lt hsat hi hj h hci hcj hai haj
  · exact sat_cell_lt hsat hj hi (by omega) hcj hci haj hai

/-! ### Soundness of the SAT model extraction -/

theorem extract_model_sublist (a : List Bool) (aps : List Placement) :
    (extract_model a aps).Sublist aps :=
  filter_enumIdx_map_snd_sublist _ 0 aps

theorem mem_extract_model {a : List Bool} {aps : List Placement} {p : Placement} :
    p ∈ extract_model a aps ↔
      ∃ i, ∃ h : i < aps.length, p = aps[i] ∧ a.getD i false = true := by
  unfold extract_model
  simp only [List.mem_map, List.mem_filter]
  constructor
  · rintro ⟨ip, ⟨hmem, hpred⟩, hsnd⟩
    rcases mem_enumIdx.mp hmem with ⟨k, hk, h1, h2⟩
    refine ⟨ip.1, by omega, ?_, hpred⟩
    rw [← hsnd, h2]
    congr 1
    omega
  · rintro ⟨i, h, h1, h2⟩
    exact ⟨(i, aps[i]), ⟨mem_enumIdx.mpr ⟨i, h, by omega, rfl⟩, h2⟩, h1.symm⟩

theorem extract_pairwise {a : List Bool} {aps : List Placement}
    {R : Placement → Placement → Prop}
    (h : ∀ i j, ∀ hi : i < aps.length, ∀ hj : j < aps.length, i < j →
      a.getD i false = true → a.getD j false = true → R aps[i] aps[j]) :
    (extract_model a aps).Pairwise R := by
  unfold extract_model
  rw [List.pairwise_map]
  have hpw : ((enumIdx 0 aps).filter fun ip => a.getD ip.1 false).Pairwise
      (fun u v : Nat × Placement => u.1 < v.1) :=
    (enumIdx_pairwise 0 aps).sublist (List.filter_sublist _)
  refine hpw.imp_of_mem ?_
  intro u v hu hv huv
  rcases List.mem_filter.mp hu with ⟨humem, hupred⟩
  rcases List.mem_filter.mp hv with ⟨hvmem, hvpred⟩
  rcases mem_enumIdx.mp humem with ⟨i, hi, hu1, hu2⟩
  rcases mem_enumIdx.mp hvmem with ⟨j, hj, hv1, hv2⟩
  rw [hu2, hv2]
  refine h i j hi hj (by omega) ?_ ?_
  · have : u.1 = i := by omega
    rw [← this]
    exact hupred
  · have : v.1 = j := by omega
    rw [← this]
    exact hvpred

theorem extract_ids_distinct {shapes : List Shape} {space : ProblemSpace}
    {aps : List Placement} {a : List Bool}
    (hb : build_placements (enumIdx 0 space.shape_counts) shapes space.width
      space.height = .ok aps)
    (hsat : evalFormula a (sat_formula space.shape_counts aps) = true)
    {i j : Nat} (hi : i < aps.length) (hj : j < aps.length) (hij : i ≠ j)
    (hai : a.getD i false = true) (haj : a.getD j false = true)
    (heq1 : aps[i].shape_id = aps[j].shape_id)
    (heq2 : aps[i].inst = aps[j].inst) : False := by
  rcases (mem_build_placements hb).mp (List.getElem_mem hi) with
    ⟨e, he, hne, shape, hfind, inst, hinst, hp⟩
  have hf := generate_placements_fields hp
  have hid1 : aps[i].shape_id = e.1 := by rw [hf.1, find_shape_id hfind]
  have hid2 : aps[i].inst = inst := hf.2.1
  exact sat_amo hsat he hne hinst hi hj hij hid1 hid2
    (by rw [← heq1, hid1]) (by rw [← heq2, hid2]) hai haj

theorem extract_mem_group {shapes : List Shape} {space : ProblemSpace}
    {aps : List Placement}
    (hb : build_placements (enumIdx 0 space.shape_counts) shapes space.width
      space.height = .ok aps) {p : Placement} (hp : p ∈ aps) :
    (∃ shape, (shapes.find? fun t => t.id == p.shape_id) = some shape ∧
      p ∈ generate_placements shape p.inst space.width space.height) ∧
    (p.shape_id, p.inst) ∈ group_pairs (enumIdx 0 space.shape_counts) := by
  rcases (mem_build_placements hb).mp hp with
    ⟨e, he, hne, shape, hfind, inst, hinst, hgen⟩
  have hf := generate_placements_fields hgen
  have hid1 : p.shape_id = e.1 := by rw [hf.1, find_shape_id hfind]
  have hid2 : p.inst = inst := hf.2.1
  constructor
  · refine ⟨shape, ?_, ?_⟩
    · rw [hid1]
      exact hfind
    · rw [hid2]
      exact hgen
  · exact mem_group_pairs.mpr ⟨e, he, hid1, by omega⟩

theorem sat_extract_good {shapes : List Shape} {space : ProblemSpace}
    {aps : List Placement} {a : List Bool}
    (hb : build_placements (enumIdx 0 space.shape_counts) shapes space.width
      space.height = .ok aps)
    (hsat : evalFormula a (sat_formula space.shape_counts aps) = true) :
    TilingOf shapes space (extract_model a aps) ∧
    ValidSolution space.shape_counts (extract_model a aps) := by
  have hsub := extract_model_sublist a aps
  have hdisj : (extract_model a aps).Pairwise cells_disjoint := by
    refine extract_pairwise ?_
    intro i j hi hj hij hai haj
    intro c hc hc'
    exact sat_cell hsat hi hj (by omega) hc hc' hai haj
  have hids_nodup : (ids_of (extract_model a aps)).Nodup := by
    unfold ids_of List.Nodup
    rw [List.pairwise_map]
    refine extract_pairwise ?_
    intro i j hi hj hij hai haj heq
    have h1 := congrArg Prod.fst heq
    have h2 := congrArg Prod.snd heq
    simp only at h1 h2
    exact extract_ids_distinct hb hsat hi hj (by omega) hai haj h1 h2
  have hids_mem : ∀ pr, pr ∈ ids_of (extract_model a aps) ↔
      pr ∈ group_pairs (enumIdx 0 space.shape_counts) := by
    intro pr
    constructor
    · intro hpr
      rcases List.mem_map.mp hpr with ⟨p, hp, hpr⟩
      rw [← hpr]
      exact (extract_mem_group hb (hsub.mem hp)).2
    · intro hpr
      rcases mem_group_pairs.mp hpr with ⟨e, he, h1, h2⟩
      rcases sat_alo hsat he (by omega) h2 with ⟨i, hlen, hs1, hs2, hatrue⟩
      refine List.mem_map.mpr ⟨aps[i], mem_extract_model.mpr ⟨i, hlen, rfl, hatrue⟩, ?_⟩
      rw [hs1, hs2]
      cases pr
      simp only at h1
      rw [h1]
  have hperm : (ids_of (extract_model a aps)).Perm
      (group_pairs (enumIdx 0 space.shape_counts)) :=
    (List.perm_ext_iff_of_nodup hids_nodup
      (group_pairs_nodup space.shape_counts)).mpr hids_mem
  refine ⟨⟨fun p hp => (extract_mem_group hb (hsub.mem hp)).1, hperm, hdisj⟩,
    hdisj, ?_, ?_⟩
  · have := hperm.length_eq
    rw [group_pairs_length] at this
    simpa [ids_of] using this
  · intro si inst hsi hinst
    have hpr : (si, inst) ∈ group_pairs (enumIdx 0 space.shape_counts) :=
      mem_group_pairs_enum.mpr ⟨hsi, hinst⟩
    rcases List.mem_map.mp ((hids_mem (si, inst)).mpr hpr) with ⟨p, hp, hpids⟩
    have hpid1 : p.shape_id = si := congrArg Prod.fst hpids
    have hpid2 : p.inst = inst := congrArg Prod.snd hpids
    refine ⟨p, ⟨hp, hpid1, hpid2⟩, ?_⟩
    rintro q ⟨hq, hq1, hq2⟩
    rcases mem_extract_model.mp hp with ⟨i, hi, hpi, hai⟩
    rcases mem_extract_model.mp hq with ⟨j, hj, hqj, haj⟩
    by_cases hij : i = j
    · subst hij
      rw [hqj, hpi]
    · exfalso
      refine extract_ids_distinct hb hsat hi hj hij hai haj ?_ ?_
      · rw [← hpi, ← hqj, hpid1, hq1]
      · rw [← hpi, ← hqj, hpid2, hq2]

/-! ### Completeness of the SAT encoding -/

theorem cells_disjoint_symm {p q : Placement} (h : cells_disjoint p q) :
    cells_disjoint q p := fun c hcq hcp => h c hcp hcq

theorem tiling_sol_facts {shapes : List Shape} {space : ProblemSpace}
    {sol : List Placement} (ht : TilingOf shapes space sol) :
    sol.Nodup ∧
    (∀ p ∈ sol, ∀ q ∈ sol, p ≠ q →
      ¬(p.shape_id = q.shape_id ∧ p.inst = q.inst)) ∧
    (∀ p ∈ sol, ∀ q ∈ sol, p ≠ q → cells_disjoint p q) := by
  obtain ⟨hmem, hperm, hdisj⟩ := ht
  have hids_nodup : (ids_of sol).Nodup :=
    hperm.symm.nodup (group_pairs_nodup space.shape_counts)
  have hpw : sol.Pairwise fun p q => ¬(p.shape_id = q.shape_id ∧ p.inst = q.inst) := by
    have := hids_nodup
    unfold ids_of List.Nodup at this
    rw [List.pairwise_map] at this
    refine this.imp ?_
    intro p q h hc
    exact h (by rw [hc.1, hc.2])
  have hsymm1 : Symmetric fun p q : Placement =>
      ¬(p.shape_id = q.shape_id ∧ p.inst = q.inst) := by
    intro x y h hc
    exact h ⟨hc.1.symm, hc.2.symm⟩
  have hsymm2 : Symmetric cells_disjoint := by
    intro x y h
    exact cells_disjoint_symm h
  refine ⟨List.Nodup.of_map _ hids_nodup, ?_, ?_⟩
  · intro p hp q hq hne
    exact hpw.forall hsymm1 hp hq hne
  · intro p hp q hq hne
    exact hdisj.forall hsymm2 hp hq hne

theorem tiling_subset_aps {shapes : List Shape} {space : ProblemSpace}
    {aps sol : List Placement}
    (hb : build_placements (enumIdx 0 space.shape_counts) shapes space.width
      space.height = .ok aps)
    (ht : TilingOf shapes space sol) : ∀ p ∈ sol, p ∈ aps := by
  obtain ⟨hmem, hperm, -⟩ := ht
  intro p hp
  have hpr : (p.shape_id, p.inst) ∈ group_pairs (enumIdx 0 space.shape_counts) :=
    hperm.mem_iff.mp (List.mem_map.mpr ⟨p, hp, rfl⟩)
  rcases mem_group_pairs.mp hpr with ⟨e, he, h1, h2⟩
  rcases hmem p hp with ⟨shape, hfind, hgen⟩
  refine (mem_build_placements hb).mpr ⟨e, he, by omega, shape, ?_, p.inst, h2, hgen⟩
  rw [← h1]
  exact hfind

theorem assignment_getD {sol aps : List Placement} {i : Nat}
    (h : i < aps.length) :
    (((List.range aps.length).map fun k =>
      decide (aps.getD k default ∈ sol)).getD i false) = decide (aps[i] ∈ sol) := by
  have h1 : ((List.range aps.length).map fun k =>
      decide (aps.getD k default ∈ sol))[i]?
        = some (decide (aps.getD i default ∈ sol)) := by
    rw [List.getElem?_map, List.getElem?_range h]
    rfl
  rw [List.getD_eq_getElem?_getD, h1]
  have h2 : aps.getD i default = aps[i] := by
    rw [List.getD_eq_getElem?_getD, List.getElem?_eq_getElem h]
    rfl
  rw [h2]
  rfl

theorem sat_complete {shapes : List Shape} {space : ProblemSpace}
    {aps sol : List Placement}
    (hb : build_placements (enumIdx 0 space.shape_counts) shapes space.width
      space.height = .ok aps)
    (ht : TilingOf shapes space sol) :
    ∃ a, a.length = aps.length ∧
      evalFormula a (sat_formula space.shape_counts aps) = true := by
  have hsubs := tiling_subset_aps hb ht
  obtain ⟨hsolnd, hids, hdisj⟩ := tiling_sol_facts ht
  obtain ⟨hmem, hperm, -⟩ := ht
  have hapsnd : aps.Nodup := by
    refine build_placements_nodup ?_ hb
    exact (enumIdx_pairwise 0 space.shape_counts).imp fun h => by omega
  refine ⟨(List.range aps.length).map fun k => decide (aps.getD k default ∈ sol),
    by simp, ?_⟩
  rw [evalFormula_forall]
  intro cl hcl
  rcases List.mem_append.mp hcl with hcl | hcl
  · rcases mem_instance_clauses.mp hcl with ⟨e, he, hne, inst, hinst, halo | hamo⟩
    · subst halo
      rw [evalClause_pos_list]
      have hpr : (e.1, inst) ∈ group_pairs (enumIdx 0 space.shape_counts) :=
        mem_group_pairs.mpr ⟨e, he, rfl, hinst⟩
      rcases List.mem_map.mp (hperm.mem_iff.mpr hpr) with ⟨p, hp, hpids⟩
      rcases List.mem_iff_getElem.mp (hsubs p hp) with ⟨i, hilen, hpi⟩
      refine ⟨i, mem_group_vars.mpr ⟨hilen, ?_, ?_⟩, ?_⟩
      · rw [hpi]
        exact congrArg Prod.fst hpids
      · rw [hpi]
        exact congrArg Prod.snd hpids
      · rw [assignment_getD hilen]
        simp only [decide_eq_true_eq]
        rw [hpi]
        exact hp
    · rcases hamo with ⟨ij, hij, hcl⟩
      subst hcl
      rw [evalClause_neg_pair]
      rcases pairsOf_mem_imp hij with ⟨hmi, hmj⟩
      have hlt : ij.1 < ij.2 := pairsOf_rel (group_vars_pairwise aps e.1 inst) hij
      rcases mem_group_vars.mp hmi with ⟨hi, hi1, hi2⟩
      rcases mem_group_vars.mp hmj with ⟨hj, hj1, hj2⟩
      by_cases hain : aps[ij.1] ∈ sol
      · by_cases hajn : aps[ij.2] ∈ sol
        · exfalso
          have hne2 : aps[ij.1] ≠ aps[ij.2] := by
            intro heq
            have : ij.1 = ij.2 := by
              rcases List.mem_iff_getElem.mp (hsubs _ hain) with -
              exact (List.Nodup.getElem_inj_iff hapsnd).mp heq
            omega
          exact hids _ hain _ hajn hne2 ⟨by rw [hi1, hj1], by rw [hi2, hj2]⟩
        · right
          rw [assignment_getD hj]
          simpa using hajn
      · left
        rw [assignment_getD hi]
        simpa using hain
  · rcases mem_cell_clauses.mp hcl with ⟨cell, hcell, ij, hij, hcl⟩
    subst hcl
    rw [evalClause_neg_pair]
    rcases pairsOf_mem_imp hij with ⟨hmi, hmj⟩
    have hlt : ij.1 < ij.2 := pairsOf_rel (cell_vars_pairwise aps cell) hij
    rcases mem_cell_vars.mp hmi with ⟨hi, hci⟩
    rcases mem_cell_vars.mp hmj with ⟨hj, hcj⟩
    by_cases hain : aps[ij.1] ∈ sol
    · by_cases hajn : aps[ij.2] ∈ sol
      · exfalso
        have hne2 : aps[ij.1] ≠ aps[ij.2] := by
          intro heq
          have : ij.1 = ij.2 := (List.Nodup.getElem_inj_iff hapsnd).mp heq
          omega
        exact hdisj _ hain _ hajn hne2 cell hci hcj
      · right
        rw [assignment_getD hj]
        simpa using hajn
    · left
      rw [assignment_getD hi]
      simpa using hain

theorem find_assignment_some {n : Nat} {P : List Bool → Bool}
    (h : ∃ a, a.length = n ∧ P a = true) :
    ∃ a, (all_assignments n).find? P = some a := by
  rcases h with ⟨a, hlen, hP⟩
  rcases hf : (all_assignments n).find? P with - | b
  · rw [List.find?_eq_none] at hf
    exact absurd hP (by simpa using hf a (mem_all_assignments.mpr hlen))
  · exact ⟨b, rfl⟩

theorem solve_with_sat_error {shapes : List Shape} {space : ProblemSpace}
    {e : String}
    (hb : build_placements (enumIdx 0 space.shape_counts) shapes space.width
      space.height = .error e) : solve_with_sat shapes space = .error e := by
  unfold solve_with_sat
  rw [hb]

theorem solve_with_sat_ok {shapes : List Shape} {space : ProblemSpace}
    {aps : List Placement}
    (hb : build_placements (enumIdx 0 space.shape_counts) shapes space.width
      space.height = .ok aps) :
    solve_with_sat shapes space =
      match (all_assignments aps.length).find? fun a =>
          evalFormula a (sat_formula space.shape_counts aps) with
      | some a => .ok (some (extract_model a aps))
      | none => .ok none := by
  unfold solve_with_sat
  rw [hb]

theorem solve_with_sat_some_sound {shapes : List Shape} {space : ProblemSpace}
    {sol : List Placement}
    (h : solve_with_sat shapes space = .ok (some sol)) :
    ∃ aps a, build_placements (enumIdx 0 space.shape_counts) shapes space.width
        space.height = .ok aps ∧
      evalFormula a (sat_formula space.shape_counts aps) = true ∧
      sol = extract_model a aps := by
  rcases hb : build_placements (enumIdx 0 space.shape_counts) shapes space.width
      space.height with e | aps
  · rw [solve_with_sat_error hb] at h
    exact absurd h (by simp)
  · rw [solve_with_sat_ok hb] at h
    rcases hf : (all_assignments aps.length).find? fun a =>
        evalFormula a (sat_formula space.shape_counts aps) with - | a
    · rw [hf] at h
      exact absurd h (by simp)
    · rw [hf] at h
      have hsol : sol = extract_model a aps :=
        (Option.some.inj (Except.ok.inj h)).symm
      have hsat' := List.find?_some hf
      have hsat : evalFormula a (sat_formula space.shape_counts aps) = true := hsat'
      exact ⟨aps, a, rfl, hsat, hsol⟩

theorem solve_with_sat_some_of_tiling {shapes : List Shape}
    {space : ProblemSpace} {aps sol : List Placement}
    (hb : build_placements (enumIdx 0 space.shape_counts) shapes space.width
      space.height = .ok aps)
    (ht : TilingOf shapes space sol) :
    ∃ sol', solve_with_sat shapes space = .ok (some sol') := by
  rcases find_assignment_some (P := fun a =>
      evalFormula a (sat_formula space.shape_counts aps))
      (by
        rcases sat_complete hb ht with ⟨a, h1, h2⟩
        exact ⟨a, h1, h2⟩) with ⟨a, hf⟩
  refine ⟨extract_model a aps, ?_⟩
  rw [solve_with_sat_ok hb, hf]

/-! ### The occupancy grid -/

theorem listGetD_set_self {α : Type} {l : List α} {n : Nat} (h : n < l.length)
    (v d : α) : (l.set n v).getD n d = v := by
  rw [List.getD_eq_getElem?_getD, List.getElem?_set_self h]
  rfl

theorem listGetD_set_ne {α : Type} {l : List α} {n m : Nat} (h : n ≠ m)
    (v d : α) : (l.set n v).getD m d = l.getD m d := by
  rw [List.getD_eq_getElem?_getD, List.getElem?_set_ne h,
    ← List.getD_eq_getElem?_getD]

theorem in_bounds_iff {width height : Nat} {c : Coords} :
    in_bounds width height c = true ↔
      0 ≤ c.x ∧ c.x < (width : Int) ∧ 0 ≤ c.y ∧ c.y < (height : Int) := by
  unfold in_bounds
  exact decide_eq_true_iff

theorem in_bounds_toNat {width height : Nat} {c : Coords}
    (h : in_bounds width height c = true) :
    c.x.toNat < width ∧ c.y.toNat < height := by
  rw [in_bounds_iff] at h
  omega

theorem in_bounds_pos_inj {width height : Nat} {c c' : Coords}
    (hb : in_bounds width height c = true)
    (hb' : in_bounds width height c' = true) (hne : c ≠ c') :
    c'.y.toNat ≠ c.y.toNat ∨ c'.x.toNat ≠ c.x.toNat := by
  rw [in_bounds_iff] at hb hb'
  by_cases hy : c'.y.toNat = c.y.toNat
  · right
    intro hx
    apply hne
    cases c; cases c'
    simp only at hb hb' hy hx ⊢
    simp only [Coords.mk.injEq]
    omega
  · exact Or.inl hy

theorem get_cell_congr_pos {g : Grid} {c c' : Coords}
    (hy : c'.y.toNat = c.y.toNat) (hx : c'.x.toNat = c.x.toNat) :
    get_cell g c' = get_cell g c := by
  unfold get_cell
  rw [hy, hx]

theorem grid_ok_row_length {width height : Nat} {g : Grid}
    (hok : grid_ok width height g) {i : Nat} (hi : i < g.length) :
    (g.getD i []).length = width := by
  rw [List.getD_eq_getElem?_getD, List.getElem?_eq_getElem hi]
  exact hok.2 g[i] (List.getElem_mem hi)

theorem set_cell_length (g : Grid) (c : Coords) (v : Option Nat) :
    (set_cell g c v).length = g.length := List.length_set ..

theorem set_cell_row_length (g : Grid) (c : Coords) (v : Option Nat) (i : Nat) :
    ((set_cell g c v).getD i []).length = (g.getD i []).length := by
  unfold set_cell
  by_cases hy : c.y.toNat = i
  · subst hy
    by_cases hlt : c.y.toNat < g.length
    · rw [listGetD_set_self hlt]
      exact List.length_set ..
    · rw [List.set_eq_of_length_le (by omega)]
  · rw [listGetD_set_ne hy]

theorem grid_ok_set_cell {width height : Nat} {g : Grid}
    (hok : grid_ok width height g) (c : Coords) (v : Option Nat) :
    grid_ok width height (set_cell g c v) := by
  refine ⟨by rw [set_cell_length, hok.1], ?_⟩
  intro row hrow
  rcases List.mem_iff_getElem.mp hrow with ⟨i, hi, hrowi⟩
  have h1 : (set_cell g c v).getD i [] = row := by
    rw [List.getD_eq_getElem?_getD, List.getElem?_eq_getElem hi, hrowi]
    rfl
  have h2 := set_cell_row_length g c v i
  rw [h1] at h2
  rw [h2]
  have hi' : i < g.length := by
    have := set_cell_length g c v
    omega
  exact grid_ok_row_length hok hi'

theorem get_set_cell_pos {g : Grid} {c c' : Coords} {v : Option Nat}
    (hy : c'.y.toNat = c.y.toNat) (hx : c'.x.toNat = c.x.toNat)
    (hylt : c.y.toNat < g.length) (hxlt : c.x.toNat < (g.getD c.y.toNat []).length) :
    get_cell (set_cell g c v) c' = v := by
  unfold get_cell set_cell
  rw [hy, hx, listGetD_set_self hylt, listGetD_set_self hxlt]

theorem get_set_cell_ne {g : Grid} {c c' : Coords} {v : Option Nat}
    (h : c'.y.toNat ≠ c.y.toNat ∨ c'.x.toNat ≠ c.x.toNat) :
    get_cell (set_cell g c v) c' = get_cell g c' := by
  unfold get_cell set_cell
  rcases h with h | h
  · rw [listGetD_set_ne (by omega)]
  · by_cases hy : c'.y.toNat = c.y.toNat
    · rw [hy]
      by_cases hlt : c.y.toNat < g.length
      · rw [listGetD_set_self hlt, listGetD_set_ne (by omega)]
      · rw [List.set_eq_of_length_le (by omega)]
    · rw [listGetD_set_ne (by omega)]

theorem place_cells_length (cells : List Coords) (g : Grid) (k : Nat) :
    (place_cells cells g k).length = g.length := by
  induction cells generalizing g with
  | nil => rfl
  | cons c cs ih =>
    unfold place_cells at ih ⊢
    rw [List.foldl_cons, ih, set_cell_length]

theorem remove_cells_length (cells : List Coords) (g : Grid) :
    (remove_cells cells g).length = g.length := by
  induction cells generalizing g with
  | nil => rfl
  | cons c cs ih =>
    unfold remove_cells at ih ⊢
    rw [List.foldl_cons, ih, set_cell_length]

theorem grid_ok_place_cells {width height : Nat} {g : Grid}
    (hok : grid_ok width height g) (cells : List Coords) (k : Nat) :
    grid_ok width height (place_cells cells g k) := by
  induction cells generalizing g with
  | nil => exact hok
  | cons c cs ih =>
    unfold place_cells at ih ⊢
    rw [List.foldl_cons]
    exact ih (grid_ok_set_cell hok c _)

theorem grid_ok_remove_cells {width height : Nat} {g : Grid}
    (hok : grid_ok width height g) (cells : List Coords) :
    grid_ok width height (remove_cells cells g) := by
  induction cells generalizing g with
  | nil => exact hok
  | cons c cs ih =>
    unfold remove_cells at ih ⊢
    rw [List.foldl_cons]
    exact ih (grid_ok_set_cell hok c _)

theorem place_cells_get {width height : Nat} {cells : List Coords} {g : Grid}
    {k : Nat} (hok : grid_ok width height g)
    (hb : ∀ c ∈ cells, in_bounds width height c = true) (c' : Coords) :
    get_cell (place_cells cells g k) c' =
      if ∃ c ∈ cells, c.y.toNat = c'.y.toNat ∧ c.x.toNat = c'.x.toNat then
        some k
      else get_cell g c' := by
  induction cells generalizing g with
  | nil => simp [place_cells]
  | cons c cs ih =>
    have hstep : place_cells (c :: cs) g k
        = place_cells cs (set_cell g c (some k)) k := rfl
    rw [hstep, ih (grid_ok_set_cell hok c _) fun d hd => hb d (by simp [hd])]
    by_cases hcs : ∃ d ∈ cs, d.y.toNat = c'.y.toNat ∧ d.x.toNat = c'.x.toNat
    · rw [if_pos hcs, if_pos ?_]
      rcases hcs with ⟨d, hd, hdp⟩
      exact ⟨d, by simp [hd], hdp⟩
    · rw [if_neg hcs]
      by_cases hc : c.y.toNat = c'.y.toNat ∧ c.x.toNat = c'.x.toNat
      · rw [if_pos ?_]
        · have hby := in_bounds_toNat (hb c (by simp))
          have hylt : c.y.toNat < g.length := by
            rw [hok.1]
            exact hby.2
          have hxlt : c.x.toNat < (g.getD c.y.toNat []).length := by
            rw [grid_ok_row_length hok hylt]
            exact hby.1
          exact get_set_cell_pos hc.1.symm hc.2.symm hylt hxlt
        · exact ⟨c, by simp, hc⟩
      · rw [if_neg ?_, get_set_cell_ne ?_]
        · rcases Decidable.not_and_iff_or_not.mp hc with h | h
          · exact Or.inl fun he => h he.symm
          · exact Or.inr fun he => h he.symm
        · rintro ⟨d, hd, hdp⟩
          rcases List.mem_cons.mp hd with rfl | hd
          · exact hc hdp
          · exact hcs ⟨d, hd, hdp⟩

theorem remove_cells_get {width height : Nat} {cells : List Coords} {g : Grid}
    (hok : grid_ok width height g)
    (hb : ∀ c ∈ cells, in_bounds width height c = true) (c' : Coords) :
    get_cell (remove_cells cells g) c' =
      if ∃ c ∈ cells, c.y.toNat = c'.y.toNat ∧ c.x.toNat = c'.x.toNat then
        none
      else get_cell g c' := by
  induction cells generalizing g with
  | nil => simp [remove_cells]
  | cons c cs ih =>
    have hstep : remove_cells (c :: cs) g
        = remove_cells cs (set_cell g c none) := rfl
    rw [hstep, ih (grid_ok_set_cell hok c _) fun d hd => hb d (by simp [hd])]
    by_cases hcs : ∃ d ∈ cs, d.y.toNat = c'.y.toNat ∧ d.x.toNat = c'.x.toNat
    · rw [if_pos hcs, if_pos ?_]
      rcases hcs with ⟨d, hd, hdp⟩
      exact ⟨d, by simp [hd], hdp⟩
    · rw [if_neg hcs]
      by_cases hc : c.y.toNat = c'.y.toNat ∧ c.x.toNat = c'.x.toNat
      · rw [if_pos ?_]
        · have hby := in_bounds_toNat (hb c (by simp))
          have hylt : c.y.toNat < g.length := by
            rw [hok.1]
            exact hby.2
          have hxlt : c.x.toNat < (g.getD c.y.toNat []).length := by
            rw [grid_ok_row_length hok hylt]
            exact hby.1
          exact get_set_cell_pos hc.1.symm hc.2.symm hylt hxlt
        · exact ⟨c, by simp, hc⟩
      · rw [if_neg ?_, get_set_cell_ne ?_]
        · rcases Decidable.not_and_iff_or_not.mp hc with h | h
          · exact Or.inl fun he => h he.symm
          · exact Or.inr fun he => h he.symm
        · rintro ⟨d, hd, hdp⟩
          rcases List.mem_cons.mp hd with rfl | hd
          · exact hc hdp
          · exact hcs ⟨d, hd, hdp⟩

theorem grid_ext {g₁ g₂ : Grid} (hlen : g₁.length = g₂.length)
    (hrow : ∀ i, i < g₁.length → (g₁.getD i []).length = (g₂.getD i []).length)
    (hcell : ∀ i j, (g₁.getD i []).getD j none = (g₂.getD i []).getD j none) :
    g₁ = g₂ := by
  refine List.ext_getElem hlen ?_
  intro i hi1 hi2
  have hro1 : g₁.getD i [] = g₁[i] := by
    rw [List.getD_eq_getElem?_getD, List.getElem?_eq_getElem hi1]
    rfl
  have hro2 : g₂.getD i [] = g₂[i] := by
    rw [List.getD_eq_getElem?_getD, List.getElem?_eq_getElem hi2]
    rfl
  have hrlen : g₁[i].length = g₂[i].length := by
    rw [← hro1, ← hro2]
    exact hrow i hi1
  refine List.ext_getElem hrlen ?_
  intro j hj1 hj2
  have h1 : (g₁.getD i []).getD j none = g₁[i][j] := by
    rw [hro1, List.getD_eq_getElem?_getD, List.getElem?_eq_getElem hj1]
    rfl
  have h2 : (g₂.getD i []).getD j none = g₂[i][j] := by
    rw [hro2, List.getD_eq_getElem?_getD, List.getElem?_eq_getElem hj2]
    rfl
  rw [← h1, ← h2]
  exact hcell i j

theorem get_cell_nat (g : Grid) (i j : Nat) :
    get_cell g ⟨(j : Int), (i : Int)⟩ = (g.getD i []).getD j none := by
  unfold get_cell
  simp

theorem remove_place_cancel {width height : Nat} {cells : List Coords}
    {g : Grid} {k : Nat} (hok : grid_ok width height g)
    (hb : ∀ c ∈ cells, in_bounds width height c = true)
    (hemp : ∀ c ∈ cells, get_cell g c = none) :
    remove_cells cells (place_cells cells g k) = g := by
  have hokp := grid_ok_place_cells hok cells k
  refine grid_ext ?_ ?_ ?_
  · rw [remove_cells_length, place_cells_length]
  · intro i hi
    have h1 := (grid_ok_remove_cells hokp cells).2
    have h2 := hok.2
    have hleng : (remove_cells cells (place_cells cells g k)).length = g.length := by
      rw [remove_cells_length, place_cells_length]
    have hig : i < g.length := by omega
    rw [grid_ok_row_length (grid_ok_remove_cells hokp cells) hi,
      grid_ok_row_length hok hig]
  · intro i j
    rw [← get_cell_nat, ← get_cell_nat]
    rw [remove_cells_get hokp hb, place_cells_get hok hb]
    by_cases hm : ∃ c ∈ cells, c.y.toNat = (Coords.mk (j : Int) (i : Int)).y.toNat ∧
        c.x.toNat = (Coords.mk (j : Int) (i : Int)).x.toNat
    · rw [if_pos hm]
      rcases hm with ⟨c, hc, hcp⟩
      have : get_cell g (Coords.mk (j : Int) (i : Int)) = get_cell g c :=
        get_cell_congr_pos hcp.1.symm hcp.2.symm
      rw [this, hemp c hc]
    · rw [if_neg hm, if_neg hm]

theorem countP_isNone_set_some {row : List (Option Nat)} {x v : Nat}
    (hx : x < row.length) (hemp : row.getD x none = none) :
    row.countP (fun cell => cell.isNone)
      = (row.set x (some v)).countP (fun cell => cell.isNone) + 1 := by
  induction row generalizing x with
  | nil => simp at hx
  | cons a t ih =>
    cases x with
    | zero =>
      have ha : a = none := hemp
      subst ha
      simp [List.countP_cons]
    | succ x =>
      have hx' : x < t.length := by simpa using hx
      have hemp' : t.getD x none = none := hemp
      rw [List.set_cons_succ]
      rw [List.countP_cons, List.countP_cons, ih hx' hemp']
      omega

theorem count_empty_setN {g : Grid} {yn xn v : Nat}
    (hy : yn < g.length) (hx : xn < (g.getD yn []).length)
    (hemp : (g.getD yn []).getD xn none = none) :
    count_empty_cells g
      = count_empty_cells (g.set yn ((g.getD yn []).set xn (some v))) + 1 := by
  induction g generalizing yn with
  | nil => simp at hy
  | cons r t ih =>
    cases yn with
    | zero =>
      have hrow : (r :: t).getD 0 [] = r := rfl
      rw [hrow] at hx hemp ⊢
      unfold count_empty_cells
      rw [List.set_cons_zero, List.flatten_cons, List.flatten_cons,
        List.countP_append, List.countP_append]
      rw [countP_isNone_set_some (v := v) hx hemp]
      omega
    | succ yn =>
      have hrow : (r :: t).getD (yn + 1) [] = t.getD yn [] := rfl
      rw [hrow] at hx hemp ⊢
      have hy' : yn < t.length := by simpa using hy
      unfold count_empty_cells
      rw [List.set_cons_succ, List.flatten_cons, List.flatten_cons,
        List.countP_append, List.countP_append]
      have := ih hy' hx hemp
      unfold count_empty_cells at this
      omega

theorem count_empty_set_cell {width height : Nat} {g : Grid} {c : Coords}
    {v : Nat} (hok : grid_ok width height g)
    (hb : in_bounds width height c = true) (hemp : get_cell g c = none) :
    count_empty_cells g = count_empty_cells (set_cell g c (some v)) + 1 := by
  have hby := in_bounds_toNat hb
  have hy : c.y.toNat < g.length := by
    rw [hok.1]
    exact hby.2
  have hx : c.x.toNat < (g.getD c.y.toNat []).length := by
    rw [grid_ok_row_length hok hy]
    exact hby.1
  exact count_empty_setN hy hx hemp

theorem count_empty_lower {width height : Nat} {L : List Coords} {g : Grid}
    (hok : grid_ok width height g) (hnd : L.Nodup)
    (hmem : ∀ c ∈ L, in_bounds width height c = true ∧ get_cell g c = none) :
    L.length ≤ count_empty_cells g := by
  induction L generalizing g with
  | nil => simp
  | cons c L' ih =>
    rcases List.nodup_cons.mp hnd with ⟨hcL, hnd'⟩
    have hcb := (hmem c (by simp)).1
    have hce := (hmem c (by simp)).2
    have hcount := count_empty_set_cell (v := 0) hok hcb hce
    have hok' := grid_ok_set_cell hok c (some 0)
    have hstep : L'.length ≤ count_empty_cells (set_cell g c (some 0)) := by
      refine ih hok' hnd' ?_
      intro d hd
      have hdb := (hmem d (by simp [hd])).1
      refine ⟨hdb, ?_⟩
      rw [get_set_cell_ne ?_]
      · exact (hmem d (by simp [hd])).2
      · refine in_bounds_pos_inj hcb hdb ?_
        intro he
        rw [← he] at hd
        exact hcL hd
    simp only [List.length_cons]
    omega

/-! ### The backtracking search -/

theorem mem_candidates {shape : Shape} {width height : Nat}
    {t : List Coords} {y x : Nat} :
    (t, y, x) ∈ candidates shape width height ↔
      t ∈ shape.get_unique_transformations ∧ y < height ∧ x < width := by
  unfold candidates
  simp only [List.mem_flatMap, List.mem_map, List.mem_range]
  constructor
  · rintro ⟨t', ht', y', hy', x', hx', he⟩
    have h1 : t' = t := congrArg (fun w => w.1) he
    have h2 : y' = y := congrArg (fun w => w.2.1) he
    have h3 : x' = x := congrArg (fun w => w.2.2) he
    subst h1; subst h2; subst h3
    exact ⟨ht', hy', hx'⟩
  · rintro ⟨ht, hy, hx⟩
    exact ⟨t, ht, y, hy, x, hx, rfl⟩

theorem forall₂_mem_right {α β : Type} {R : α → β → Prop} {l₁ : List α}
    {l₂ : List β} (h : List.Forall₂ R l₁ l₂) {b : β} (hb : b ∈ l₂) :
    ∃ a ∈ l₁, R a b := by
  induction h with
  | nil => simp at hb
  | cons hab htail ih =>
    rcases List.mem_cons.mp hb with rfl | hb
    · exact ⟨_, by simp, hab⟩
    · rcases ih hb with ⟨a, ha, hR⟩
      exact ⟨a, by simp [ha], hR⟩

theorem forall₂_map_self {α β : Type} {R : α → β → Prop} {f : α → β}
    {l : List α} (h : ∀ a ∈ l, R a (f a)) : List.Forall₂ R l (l.map f) := by
  induction l with
  | nil => exact List.Forall₂.nil
  | cons a t ih =>
    exact List.Forall₂.cons (h a (by simp)) (ih fun b hb => h b (by simp [hb]))

theorem placement_ok_cells {width height : Nat} {piece : Piece} {p : Placement}
    (h : placement_ok width height piece p) :
    p.cells.all (in_bounds width height) = true ∧ p.cells.Nodup ∧
    p.cells.length = piece.2.2.count_cells := by
  obtain ⟨-, -, t, ht, y, -, x, -, -, -, hcells, hall⟩ := h
  refine ⟨hall, ?_, ?_⟩
  · rw [hcells]
    exact translate_cells_nodup x y (gut_elem_nodup ht)
  · rw [hcells, translate_cells_length, gut_elem_length ht]

theorem count_remaining_forall₂ {width height : Nat} {pieces : List Piece}
    {l : List Placement} (h : List.Forall₂ (placement_ok width height) pieces l) :
    count_remaining_cells pieces = (l.map fun p => p.cells.length).sum := by
  induction h with
  | nil => rfl
  | cons hab htail ih =>
    unfold count_remaining_cells at ih ⊢
    simp only [List.map_cons, List.sum_cons]
    rw [ih, (placement_ok_cells hab).2.2]

theorem try_candidates_restore {width height : Nat}
    {recur : Grid → List Placement → Bool × Grid × List Placement}
    (hrec : ∀ g' sol', grid_ok width height g' →
      (recur g' sol').1 = false → (recur g' sol').2 = (g', sol')) :
    ∀ (cands : List (List Coords × Nat × Nat)) shape_id inst piece_idx grid sol,
      grid_ok width height grid →
      (try_candidates recur cands shape_id inst piece_idx grid width height
        sol).1 = false →
      (try_candidates recur cands shape_id inst piece_idx grid width height
        sol).2 = (grid, sol) := by
  intro cands
  induction cands with
  | nil =>
    intro shape_id inst piece_idx grid sol hok hfail
    rfl
  | cons cand cs ih =>
    obtain ⟨transform, y, x⟩ := cand
    intro shape_id inst piece_idx grid sol hok hfail
    simp only [try_candidates] at hfail ⊢
    by_cases hguard : ((translate_cells transform x y).all (in_bounds width height)
        && can_place_cells (translate_cells transform x y) grid) = true
    · rw [if_pos hguard] at hfail ⊢
      have hallb : (translate_cells transform x y).all (in_bounds width height)
          = true := (Bool.and_eq_true_iff.mp hguard).1
      have hcanp : can_place_cells (translate_cells transform x y) grid = true :=
        (Bool.and_eq_true_iff.mp hguard).2
      have hballs : ∀ c ∈ translate_cells transform x y,
          in_bounds width height c = true := List.all_eq_true.mp hallb
      have hempty : ∀ c ∈ translate_cells transform x y, get_cell grid c = none := by
        intro c hc
        have := List.all_eq_true.mp hcanp c hc
        exact Option.isNone_iff_eq_none.mp this
      rcases hr : recur (place_cells (translate_cells transform x y) grid piece_idx)
          (sol ++ [{ shape_id := shape_id, inst := inst, x := (x : Int),
                     y := (y : Int), cells := translate_cells transform x y }]) with
        ⟨b, g2, s2⟩
      rw [hr] at hfail ⊢
      cases b with
      | true => exact absurd hfail (by simp)
      | false =>
        have hokp := grid_ok_place_cells hok (translate_cells transform x y)
          piece_idx
        have hrest := hrec _ _ hokp (by rw [hr])
        rw [hr] at hrest
        have hg2 : g2 = place_cells (translate_cells transform x y) grid piece_idx :=
          congrArg Prod.fst hrest
        have hs2 : s2 = sol ++ [Placement.mk shape_id inst (x : Int) (y : Int)
            (translate_cells transform x y)] :=
          congrArg Prod.snd hrest
        have hfail' : (try_candidates recur cs shape_id inst piece_idx
            (remove_cells (translate_cells transform x y) g2) width height
            s2.dropLast).1 = false := hfail
        rw [hg2, hs2, remove_place_cancel hok hballs hempty,
          List.dropLast_concat] at hfail'
        show (try_candidates recur cs shape_id inst piece_idx
            (remove_cells (translate_cells transform x y) g2) width height
            s2.dropLast).2 = (grid, sol)
        rw [hg2, hs2, remove_place_cancel hok hballs hempty,
          List.dropLast_concat]
        exact ih shape_id inst piece_idx grid sol hok hfail' 
    · rw [if_neg hguard] at hfail ⊢
      exact ih shape_id inst piece_idx grid sol hok hfail

theorem backtrack_restore {width height : Nat} :
    ∀ (pieces : List Piece) piece_idx grid sol, grid_ok width height grid →
      (backtrack_optimized pieces piece_idx grid width height sol).1 = false →
      (backtrack_optimized pieces piece_idx grid width height sol).2
        = (grid, sol) := by
  intro pieces
  induction pieces with
  | nil =>
    intro piece_idx grid sol hok hfail
    exact absurd hfail (by simp [backtrack_optimized])
  | cons piece rest ih =>
    intro piece_idx grid sol hok hfail
    simp only [backtrack_optimized] at hfail ⊢
    by_cases hprune : count_empty_cells grid
        < count_remaining_cells (piece :: rest)
    · rw [if_pos hprune] at hfail ⊢
    · rw [if_neg hprune] at hfail ⊢
      exact try_candidates_restore
        (fun g' sol' hok' => ih (piece_idx + 1) g' sol' hok')
        _ piece.1 piece.2.1 piece_idx grid sol hok hfail

theorem try_candidates_sound {width height : Nat}
    {recur : Grid → List Placement → Bool × Grid × List Placement}
    {rest : List Piece}
    (hrec_restore : ∀ g' sol', grid_ok width height g' →
      (recur g' sol').1 = false → (recur g' sol').2 = (g', sol'))
    (hrec_sound : ∀ g' sol' g'' sol'', grid_ok width height g' →
      recur g' sol' = (true, g'', sol'') →
      ∃ l, sol'' = sol' ++ l ∧ List.Forall₂ (placement_ok width height) rest l ∧
        (∀ p ∈ l, ∀ c ∈ p.cells, get_cell g' c = none) ∧
        l.Pairwise cells_disjoint)
    {shape : Shape} :
    ∀ (cands : List (List Coords × Nat × Nat)) shape_id inst piece_idx grid sol
      g'' sol'', grid_ok width height grid →
      (∀ cd ∈ cands, cd.1 ∈ shape.get_unique_transformations ∧
        cd.2.1 < height ∧ cd.2.2 < width) →
      try_candidates recur cands shape_id inst piece_idx grid width height sol
        = (true, g'', sol'') →
      ∃ l, sol'' = sol ++ l ∧
        List.Forall₂ (placement_ok width height) ((shape_id, inst, shape) :: rest) l ∧
        (∀ p ∈ l, ∀ c ∈ p.cells, get_cell grid c = none) ∧
        l.Pairwise cells_disjoint := by
  intro cands
  induction cands with
  | nil =>
    intro shape_id inst piece_idx grid sol g'' sol'' hok hcands hsucc
    have h' : ((false, grid, sol) : Bool × Grid × List Placement)
        = (true, g'', sol'') := hsucc
    exact absurd (congrArg Prod.fst h') (by simp)
  | cons cand cs ih =>
    obtain ⟨transform, y, x⟩ := cand
    intro shape_id inst piece_idx grid sol g'' sol'' hok hcands hsucc
    simp only [try_candidates] at hsucc
    by_cases hguard : ((translate_cells transform x y).all (in_bounds width height)
        && can_place_cells (translate_cells transform x y) grid) = true
    · rw [if_pos hguard] at hsucc
      have hallb : (translate_cells transform x y).all (in_bounds width height)
          = true := (Bool.and_eq_true_iff.mp hguard).1
      have hcanp : can_place_cells (translate_cells transform x y) grid = true :=
        (Bool.and_eq_true_iff.mp hguard).2
      have hballs : ∀ c ∈ translate_cells transform x y,
          in_bounds width height c = true := List.all_eq_true.mp hallb
      have hempty : ∀ c ∈ translate_cells transform x y, get_cell grid c = none := by
        intro c hc
        exact Option.isNone_iff_eq_none.mp (List.all_eq_true.mp hcanp c hc)
      have hokp := grid_ok_place_cells hok (translate_cells transform x y) piece_idx
      rcases hr : recur (place_cells (translate_cells transform x y) grid piece_idx)
          (sol ++ [Placement.mk shape_id inst (x : Int) (y : Int)
            (translate_cells transform x y)]) with ⟨b, g2, s2⟩
      rw [hr] at hsucc
      cases b with
      | true =>
        have h' : ((true, g2, s2) : Bool × Grid × List Placement)
            = (true, g'', sol'') := hsucc
        have hg : g2 = g'' := congrArg (fun w => w.2.1) h'
        have hs : s2 = sol'' := congrArg (fun w => w.2.2) h'
        rcases hrec_sound _ _ _ _ hokp (by rw [hr, hg, hs]) with
          ⟨l, hsol, hf, hemp, hdisj⟩
        have hcd := hcands (transform, y, x) (by simp)
        refine ⟨Placement.mk shape_id inst (x : Int) (y : Int)
          (translate_cells transform x y) :: l, ?_, ?_, ?_, ?_⟩
        · rw [hsol, List.append_assoc]
          rfl
        · refine List.Forall₂.cons ?_ hf
          exact ⟨rfl, rfl, transform, hcd.1, y, hcd.2.1, x, hcd.2.2, rfl, rfl,
            rfl, hallb⟩
        · intro p hp c hc
          rcases List.mem_cons.mp hp with rfl | hp
          · exact hempty c hc
          · have hnone := hemp p hp c hc
            rw [place_cells_get hok hballs c] at hnone
            by_cases hm : ∃ d ∈ translate_cells transform x y,
                d.y.toNat = c.y.toNat ∧ d.x.toNat = c.x.toNat
            · rw [if_pos hm] at hnone
              exact absurd hnone (by simp)
            · rw [if_neg hm] at hnone
              exact hnone
        · refine List.Pairwise.cons ?_ hdisj
          intro q hq c hc hcq
          have hnone := hemp q hq c hcq
          rw [place_cells_get hok hballs c] at hnone
          rw [if_pos ⟨c, hc, rfl, rfl⟩] at hnone
          exact absurd hnone (by simp)
      | false =>
        have hrest := hrec_restore _ _ hokp (by rw [hr])
        rw [hr] at hrest
        have hg2 : g2 = place_cells (translate_cells transform x y) grid piece_idx :=
          congrArg Prod.fst hrest
        have hs2 : s2 = sol ++ [Placement.mk shape_id inst (x : Int) (y : Int)
            (translate_cells transform x y)] := congrArg Prod.snd hrest
        have hsucc' : try_candidates recur cs shape_id inst piece_idx
            (remove_cells (translate_cells transform x y) g2) width height
            s2.dropLast = (true, g'', sol'') := hsucc
        rw [hg2, hs2, remove_place_cancel hok hballs hempty,
          List.dropLast_concat] at hsucc'
        exact ih shape_id inst piece_idx grid sol g'' sol'' hok
          (fun cd hcd => hcands cd (by simp [hcd])) hsucc'
    · rw [if_neg hguard] at hsucc
      exact ih shape_id inst piece_idx grid sol g'' sol'' hok
        (fun cd hcd => hcands cd (by simp [hcd])) hsucc

theorem backtrack_sound {width height : Nat} :
    ∀ (pieces : List Piece) piece_idx grid sol g'' sol'',
      grid_ok width height grid →
      backtrack_optimized pieces piece_idx grid width height sol
        = (true, g'', sol'') →
      ∃ l, sol'' = sol ++ l ∧
        List.Forall₂ (placement_ok width height) pieces l ∧
        (∀ p ∈ l, ∀ c ∈ p.cells, get_cell grid c = none) ∧
        l.Pairwise cells_disjoint := by
  intro pieces
  induction pieces with
  | nil =>
    intro piece_idx grid sol g'' sol'' hok hsucc
    have h' : ((true, grid, sol) : Bool × Grid × List Placement)
        = (true, g'', sol'') := hsucc
    have hsol : sol = sol'' := congrArg (fun w => w.2.2) h'
    exact ⟨[], by rw [← hsol, List.append_nil], List.Forall₂.nil,
      by simp, by simp⟩
  | cons piece rest ih =>
    intro piece_idx grid sol g'' sol'' hok hsucc
    obtain ⟨sid, inst, shape⟩ := piece
    simp only [backtrack_optimized] at hsucc
    by_cases hprune : count_empty_cells grid
        < count_remaining_cells ((sid, inst, shape) :: rest)
    · rw [if_pos hprune] at hsucc
      exact absurd (congrArg Prod.fst hsucc) (by simp)
    · rw [if_neg hprune] at hsucc
      refine try_candidates_sound
        (fun g' sol' hok' => backtrack_restore rest (piece_idx + 1) g' sol' hok')
        (fun g' sol' g2 s2 hok' hs => ih (piece_idx + 1) g' sol' g2 s2 hok' hs)
        _ sid inst piece_idx grid sol g'' sol'' hok ?_ hsucc
      intro cd hcd
      obtain ⟨t, y, x⟩ := cd
      exact mem_candidates.mp hcd

theorem try_candidates_complete {width height : Nat}
    {recur : Grid → List Placement → Bool × Grid × List Placement}
    {rest : List Piece}
    (hrec_restore : ∀ g' sol', grid_ok width height g' →
      (recur g' sol').1 = false → (recur g' sol').2 = (g', sol'))
    (hrec_complete : ∀ g' sol', grid_ok width height g' →
      (∃ l, List.Forall₂ (placement_ok width height) rest l ∧
        (∀ p ∈ l, ∀ c ∈ p.cells, get_cell g' c = none) ∧
        l.Pairwise cells_disjoint) →
      (recur g' sol').1 = true) :
    ∀ (cands : List (List Coords × Nat × Nat)) shape_id inst piece_idx grid sol,
      grid_ok width height grid →
      (∃ t y x, (t, y, x) ∈ cands ∧
        (translate_cells t x y).all (in_bounds width height) = true ∧
        (∀ c ∈ translate_cells t x y, get_cell grid c = none) ∧
        ∃ l, List.Forall₂ (placement_ok width height) rest l ∧
          (∀ p ∈ l, ∀ c ∈ p.cells,
            get_cell grid c = none ∧ c ∉ translate_cells t x y) ∧
          l.Pairwise cells_disjoint) →
      (try_candidates recur cands shape_id inst piece_idx grid width height
        sol).1 = true := by
  intro cands
  induction cands with
  | nil =>
    intro shape_id inst piece_idx grid sol hok hwit
    rcases hwit with ⟨t, y, x, hmem, -⟩
    simp at hmem
  | cons cand cs ih =>
    obtain ⟨t0, y0, x0⟩ := cand
    intro shape_id inst piece_idx grid sol hok hwit
    simp only [try_candidates]
    by_cases hguard : ((translate_cells t0 x0 y0).all (in_bounds width height)
        && can_place_cells (translate_cells t0 x0 y0) grid) = true
    · rw [if_pos hguard]
      have hallb : (translate_cells t0 x0 y0).all (in_bounds width height)
          = true := (Bool.and_eq_true_iff.mp hguard).1
      have hcanp : can_place_cells (translate_cells t0 x0 y0) grid = true :=
        (Bool.and_eq_true_iff.mp hguard).2
      have hballs : ∀ c ∈ translate_cells t0 x0 y0,
          in_bounds width height c = true := List.all_eq_true.mp hallb
      have hempty0 : ∀ c ∈ translate_cells t0 x0 y0, get_cell grid c = none := by
        intro c hc
        exact Option.isNone_iff_eq_none.mp (List.all_eq_true.mp hcanp c hc)
      have hokp := grid_ok_place_cells hok (translate_cells t0 x0 y0) piece_idx
      rcases hwit with ⟨t, y, x, hmem, hwallb, hwemp, l, hwf, hwl, hwdisj⟩
      rcases List.mem_cons.mp hmem with heq | hmem
      · have ht : t0 = t := congrArg (fun w => w.1) heq.symm
        have hy : y0 = y := congrArg (fun w => w.2.1) heq.symm
        have hx : x0 = x := congrArg (fun w => w.2.2) heq.symm
        subst ht; subst hy; subst hx
        have hrectrue : (recur (place_cells (translate_cells t0 x0 y0) grid
            piece_idx) (sol ++ [Placement.mk shape_id inst (x0 : Int) (y0 : Int)
            (translate_cells t0 x0 y0)])).1 = true := by
          refine hrec_complete _ _ hokp ⟨l, hwf, ?_, hwdisj⟩
          intro p hp c hc
          have hpc := hwl p hp c hc
          rw [place_cells_get hok hballs c]
          have hinb : in_bounds width height c = true := by
            rcases forall₂_mem_right hwf hp with ⟨piece, -, hpo⟩
            exact List.all_eq_true.mp (placement_ok_cells hpo).1 c hc
          rw [if_neg ?_]
          · exact hpc.1
          · rintro ⟨d, hd, hdp⟩
            have hdc : d = c := by
              have hdb := hballs d hd
              rw [in_bounds_iff] at hdb hinb
              cases d; cases c
              simp only at hdp hdb hinb
              simp only [Coords.mk.injEq]
              omega
            rw [hdc] at hd
            exact hpc.2 hd
        rcases hr : recur (place_cells (translate_cells t0 x0 y0) grid piece_idx)
            (sol ++ [Placement.mk shape_id inst (x0 : Int) (y0 : Int)
              (translate_cells t0 x0 y0)]) with ⟨b, g2, s2⟩
        rw [hr] at hrectrue
        cases b with
        | true => rfl
        | false => exact absurd hrectrue (by simp)
      · rcases hr : recur (place_cells (translate_cells t0 x0 y0) grid piece_idx)
            (sol ++ [Placement.mk shape_id inst (x0 : Int) (y0 : Int)
              (translate_cells t0 x0 y0)]) with ⟨b, g2, s2⟩
        cases b with
        | true => rfl
        | false =>
          have hrest := hrec_restore _ _ hokp (by rw [hr])
          rw [hr] at hrest
          have hg2 : g2 = place_cells (translate_cells t0 x0 y0) grid piece_idx :=
            congrArg Prod.fst hrest
          have hs2 : s2 = sol ++ [Placement.mk shape_id inst (x0 : Int) (y0 : Int)
              (translate_cells t0 x0 y0)] := congrArg Prod.snd hrest
          show (try_candidates recur cs shape_id inst piece_idx
              (remove_cells (translate_cells t0 x0 y0) g2) width height
              s2.dropLast).1 = true
          rw [hg2, hs2, remove_place_cancel hok hballs hempty0,
            List.dropLast_concat]
          exact ih shape_id inst piece_idx grid sol hok
            ⟨t, y, x, hmem, hwallb, hwemp, l, hwf, hwl, hwdisj⟩
    · rw [if_neg hguard]
      rcases hwit with ⟨t, y, x, hmem, hwallb, hwemp, l, hwf, hwl, hwdisj⟩
      rcases List.mem_cons.mp hmem with heq | hmem
      · exfalso
        have ht : t0 = t := congrArg (fun w => w.1) heq.symm
        have hy : y0 = y := congrArg (fun w => w.2.1) heq.symm
        have hx : x0 = x := congrArg (fun w => w.2.2) heq.symm
        subst ht; subst hy; subst hx
        refine hguard (Bool.and_eq_true_iff.mpr ⟨hwallb, ?_⟩)
        unfold can_place_cells
        rw [List.all_eq_true]
        intro c hc
        rw [hwemp c hc]
        rfl
      · exact ih shape_id inst piece_idx grid sol hok
          ⟨t, y, x, hmem, hwallb, hwemp, l, hwf, hwl, hwdisj⟩

theorem backtrack_complete {width height : Nat} :
    ∀ (pieces : List Piece) piece_idx grid sol,
      grid_ok width height grid →
      (∃ l, List.Forall₂ (placement_ok width height) pieces l ∧
        (∀ p ∈ l, ∀ c ∈ p.cells, get_cell grid c = none) ∧
        l.Pairwise cells_disjoint) →
      (backtrack_optimized pieces piece_idx grid width height sol).1 = true := by
  intro pieces
  induction pieces with
  | nil =>
    intro piece_idx grid sol hok hwit
    rfl
  | cons piece rest ih =>
    intro piece_idx grid sol hok hwit
    obtain ⟨sid, inst, shape⟩ := piece
    rcases hwit with ⟨l, hf, hemp, hdisj⟩
    rcases hf with - | ⟨hp0, hf'⟩
    rename_i p0 l'
    simp only [backtrack_optimized]
    have hcells_nodup : ((p0 :: l').flatMap fun p => p.cells).Nodup := by
      rw [List.nodup_flatMap]
      constructor
      · intro p hp
        rcases forall₂_mem_right (List.Forall₂.cons hp0 hf') hp with ⟨piece, -, hpo⟩
        exact (placement_ok_cells hpo).2.1
      · exact hdisj.imp fun hpq => fun c hcp hcq => hpq c hcp hcq
    have hcount : count_remaining_cells ((sid, inst, shape) :: rest)
        ≤ count_empty_cells grid := by
      rw [count_remaining_forall₂ (List.Forall₂.cons hp0 hf')]
      have hlen : (((p0 :: l').flatMap fun p => p.cells)).length
          = ((p0 :: l').map fun p => p.cells.length).sum := by
        rw [List.length_flatMap]
        simp [Function.comp_def]
      rw [← hlen]
      refine count_empty_lower hok hcells_nodup ?_
      intro c hc
      rcases List.mem_flatMap.mp hc with ⟨p, hp, hcp⟩
      refine ⟨?_, hemp p hp c hcp⟩
      rcases forall₂_mem_right (List.Forall₂.cons hp0 hf') hp with ⟨piece, -, hpo⟩
      exact List.all_eq_true.mp (placement_ok_cells hpo).1 c hcp
    rw [if_neg (by omega)]
    obtain ⟨hps, hpi, t, ht, y, hy, x, hx, hpx, hpy, hpcells, hpall⟩ := hp0
    refine try_candidates_complete
      (fun g' sol' hok' => backtrack_restore rest (piece_idx + 1) g' sol' hok')
      (fun g' sol' hok' hex => ih (piece_idx + 1) g' sol' hok' hex)
      _ sid inst piece_idx grid sol hok ?_
    refine ⟨t, y, x, mem_candidates.mpr ⟨ht, hy, hx⟩, ?_, ?_, l', hf', ?_, ?_⟩
    · rw [← hpcells]
      exact hpall
    · intro c hc
      rw [← hpcells] at hc
      exact hemp p0 (by simp) c hc
    · intro p hp c hc
      refine ⟨hemp p (by simp [hp]) c hc, ?_⟩
      rw [← hpcells]
      intro hcp0
      have hd := List.pairwise_cons.mp hdisj
      exact hd.1 p hp c hcp0 hc
    · exact (List.pairwise_cons.mp hdisj).2

/-! ### Top-level behaviour of the backtracking solver -/

theorem grid_ok_replicate (width height : Nat) :
    grid_ok width height (List.replicate height (List.replicate width none)) := by
  refine ⟨List.length_replicate .., ?_⟩
  intro row hrow
  rw [List.eq_of_mem_replicate hrow]
  exact List.length_replicate ..

theorem get_cell_replicate (width height : Nat) (c : Coords) :
    get_cell (List.replicate height (List.replicate width none)) c = none := by
  unfold get_cell
  have hrow : (List.replicate height
        (List.replicate width (none : Option Nat))).getD c.y.toNat []
      = if c.y.toNat < height then List.replicate width (none : Option Nat)
        else [] := by
    by_cases hy : c.y.toNat < height
    · rw [if_pos hy, List.getD_eq_getElem?_getD, List.getElem?_replicate_of_lt hy]
      rfl
    · rw [if_neg hy, List.getD_eq_getElem?_getD,
        List.getElem?_eq_none (by rw [List.length_replicate]; omega)]
      rfl
  rw [hrow]
  by_cases hy : c.y.toNat < height
  · rw [if_pos hy]
    by_cases hx : c.x.toNat < width
    · rw [List.getD_eq_getElem?_getD, List.getElem?_replicate_of_lt hx]
      rfl
    · rw [List.getD_eq_getElem?_getD,
        List.getElem?_eq_none (by rw [List.length_replicate]; omega)]
      rfl
  · rw [if_neg hy]
    rfl

theorem solve_bt_error {shapes : List Shape} {space : ProblemSpace} {e : String}
    (hb : build_pieces (enumIdx 0 space.shape_counts) shapes = .error e) :
    solve_with_backtracking shapes space = .error e := by
  unfold solve_with_backtracking
  rw [hb]

theorem solve_bt_ok {shapes : List Shape} {space : ProblemSpace}
    {pcs : List Piece}
    (hb : build_pieces (enumIdx 0 space.shape_counts) shapes = .ok pcs) :
    solve_with_backtracking shapes space =
      match backtrack_optimized (pcs.insertionSort fun a b => piece_le a b = true)
          0 (List.replicate space.height (List.replicate space.width none))
          space.width space.height [] with
      | (true, _, sol) => .ok (some sol)
      | (false, _, _) => .ok none := by
  unfold solve_with_backtracking
  rw [hb]

theorem forall₂_ids {width height : Nat} {pieces : List Piece}
    {l : List Placement}
    (h : List.Forall₂ (placement_ok width height) pieces l) :
    ids_of l = pieces.map fun pc => (pc.1, pc.2.1) := by
  induction h with
  | nil => rfl
  | cons hab htail ih =>
    unfold ids_of at ih ⊢
    simp only [List.map_cons, ih]
    congr 1
    rw [hab.1, hab.2.1]

theorem tiling_valid {shapes : List Shape} {space : ProblemSpace}
    {sol : List Placement} (ht : TilingOf shapes space sol) :
    ValidSolution space.shape_counts sol := by
  obtain ⟨-, hids, -⟩ := tiling_sol_facts ht
  obtain ⟨hmem, hperm, hdisj⟩ := ht
  refine ⟨hdisj, ?_, ?_⟩
  · have := hperm.length_eq
    rw [group_pairs_length] at this
    simpa [ids_of] using this
  · intro si inst hsi hinst
    have hpr : (si, inst) ∈ group_pairs (enumIdx 0 space.shape_counts) :=
      mem_group_pairs_enum.mpr ⟨hsi, hinst⟩
    rcases List.mem_map.mp (hperm.mem_iff.mpr hpr) with ⟨p, hp, hpids⟩
    have hpid1 : p.shape_id = si := congrArg Prod.fst hpids
    have hpid2 : p.inst = inst := congrArg Prod.snd hpids
    refine ⟨p, ⟨hp, hpid1, hpid2⟩, ?_⟩
    rintro q ⟨hq, hq1, hq2⟩
    by_cases hpq : q = p
    · exact hpq
    · exact absurd ⟨by rw [hq1, hpid1], by rw [hq2, hpid2]⟩ (hids q hq p hp hpq)

theorem solve_bt_some_sound {shapes : List Shape} {space : ProblemSpace}
    {sol : List Placement}
    (h : solve_with_backtracking shapes space = .ok (some sol)) :
    ∃ pcs, build_pieces (enumIdx 0 space.shape_counts) shapes = .ok pcs ∧
      TilingOf shapes space sol := by
  rcases hb : build_pieces (enumIdx 0 space.shape_counts) shapes with e | pcs
  · rw [solve_bt_error hb] at h
    exact absurd h (by simp)
  · rw [solve_bt_ok hb] at h
    rcases hbt : backtrack_optimized
        (pcs.insertionSort fun a b => piece_le a b = true) 0
        (List.replicate space.height (List.replicate space.width none))
        space.width space.height [] with ⟨b, g2, s2⟩
    rw [hbt] at h
    cases b with
    | false => exact absurd h (by simp)
    | true =>
      have hsol : s2 = sol := Option.some.inj (Except.ok.inj h)
      rcases @backtrack_sound space.width space.height
          _ 0 _ [] g2 s2 (grid_ok_replicate space.width space.height) hbt with
        ⟨l, hs2, hf, hemp, hdisj⟩
      have hl : sol = l := by
        rw [← hsol, hs2]
        rfl
      subst hl
      have hperm := List.perm_insertionSort
        (fun a b => piece_le a b = true) pcs
      refine ⟨pcs, rfl, ?_, ?_, hdisj⟩
      · intro p hp
        rcases forall₂_mem_right hf hp with ⟨pc, hpc, hpo⟩
        have hpcs : pc ∈ pcs := hperm.mem_iff.mp hpc
        have hfind := build_pieces_find hb pc hpcs
        have hid : pc.2.2.id = pc.1 := find_shape_id hfind
        have hgen : p ∈ generate_placements pc.2.2 pc.2.1
            space.width space.height :=
          (placement_ok_iff_mem_gen hid).mp hpo
        refine ⟨pc.2.2, ?_, ?_⟩
        · rw [hpo.1]
          exact hfind
        · rw [hpo.2.1]
          exact hgen
      · rw [forall₂_ids hf, ← build_pieces_ids hb]
        exact hperm.map fun pc => (pc.1, pc.2.1)

theorem solve_bt_some_of_tiling {shapes : List Shape} {space : ProblemSpace}
    {pcs : List Piece} {sol : List Placement}
    (hb : build_pieces (enumIdx 0 space.shape_counts) shapes = .ok pcs)
    (ht : TilingOf shapes space sol) :
    ∃ sol', solve_with_backtracking shapes space = .ok (some sol') := by
  obtain ⟨hsolnd, hids, hdisj'⟩ := tiling_sol_facts ht
  obtain ⟨hmem, hperm, hdisj⟩ := ht
  have hperm_sort := List.perm_insertionSort
    (fun a b => piece_le a b = true) pcs
  have hchoose : ∀ pc ∈ pcs.insertionSort fun a b => piece_le a b = true,
      ∃ p, (sol.find? fun q => q.shape_id == pc.1 && q.inst == pc.2.1) = some p ∧
        p ∈ sol ∧ p.shape_id = pc.1 ∧ p.inst = pc.2.1 := by
    intro pc hpc
    have hpcs : pc ∈ pcs := hperm_sort.mem_iff.mp hpc
    have hprid : (pc.1, pc.2.1) ∈ group_pairs (enumIdx 0 space.shape_counts) := by
      rw [← build_pieces_ids hb]
      exact List.mem_map.mpr ⟨pc, hpcs, rfl⟩
    rcases List.mem_map.mp (hperm.mem_iff.mpr hprid) with ⟨p, hp, hpids⟩
    rcases hfq : sol.find? fun q => q.shape_id == pc.1 && q.inst == pc.2.1 with
      - | p'
    · rw [List.find?_eq_none] at hfq
      have h1 : p.shape_id = pc.1 := congrArg Prod.fst hpids
      have h2 : p.inst = pc.2.1 := congrArg Prod.snd hpids
      exact absurd (by simp [h1, h2]) (hfq p hp)
    · have hpred := List.find?_some hfq
      simp only [Bool.and_eq_true_iff, beq_iff_eq] at hpred
      exact ⟨p', hfq, List.mem_of_find?_eq_some hfq, hpred.1, hpred.2⟩
  have hcomp : ∃ l, List.Forall₂ (placement_ok space.width space.height)
      (pcs.insertionSort fun a b => piece_le a b = true) l ∧
      (∀ p ∈ l, ∀ c ∈ p.cells,
        get_cell (List.replicate space.height
          (List.replicate space.width none)) c = none) ∧
      l.Pairwise cells_disjoint := by
    refine ⟨(pcs.insertionSort fun a b => piece_le a b = true).map fun pc =>
      (sol.find? fun q => q.shape_id == pc.1 && q.inst == pc.2.1).getD default,
      ?_, ?_, ?_⟩
    · refine forall₂_map_self ?_
      intro pc hpc
      rcases hchoose pc hpc with ⟨p, hfq, hp, hp1, hp2⟩
      rw [hfq]
      simp only [Option.getD_some]
      rcases hmem p hp with ⟨shape, hfind, hgen⟩
      have hfind2 := build_pieces_find hb pc (hperm_sort.mem_iff.mp hpc)
      have hshape : shape = pc.2.2 := by
        rw [hp1] at hfind
        rw [hfind] at hfind2
        exact Option.some.inj hfind2
      have hid : pc.2.2.id = pc.1 := find_shape_id hfind2
      refine (placement_ok_iff_mem_gen hid).mpr ?_
      rw [← hshape, ← hp2]
      exact hgen
    · intro p hp c hc
      exact get_cell_replicate space.width space.height c
    · rw [List.pairwise_map]
      have hgpnodup : (group_pairs (enumIdx 0 space.shape_counts)).Nodup :=
        group_pairs_nodup space.shape_counts
      have hmapperm : ((pcs.insertionSort fun a b => piece_le a b = true).map
          fun pc => (pc.1, pc.2.1)).Perm
            (group_pairs (enumIdx 0 space.shape_counts)) := by
        rw [← build_pieces_ids hb]
        exact hperm_sort.map fun pc => (pc.1, pc.2.1)
      have hidsnodup : ((pcs.insertionSort fun a b => piece_le a b = true).map
          fun pc => (pc.1, pc.2.1)).Nodup := hmapperm.symm.nodup hgpnodup
      have hpw : (pcs.insertionSort fun a b => piece_le a b = true).Pairwise
          fun pc pc' => (pc.1, pc.2.1) ≠ (pc'.1, pc'.2.1) := by
        have := hidsnodup
        unfold List.Nodup at this
        rw [List.pairwise_map] at this
        exact this
      refine hpw.imp_of_mem ?_
      intro pc pc' hpc hpc' hne
      rcases hchoose pc hpc with ⟨p, hfq, hp, hp1, hp2⟩
      rcases hchoose pc' hpc' with ⟨p', hfq', hp', hp1', hp2'⟩
      rw [hfq, hfq']
      simp only [Option.getD_some]
      refine hdisj' p hp p' hp' ?_
      intro he
      refine hne ?_
      rw [← hp1, ← hp2, he, hp1', hp2']
  have htrue := @backtrack_complete space.width space.height
    (pcs.insertionSort fun a b => piece_le a b = true) 0
    (List.replicate space.height (List.replicate space.width none)) []
    (grid_ok_replicate space.width space.height) hcomp
  rw [solve_bt_ok hb]
  rcases hbt : backtrack_optimized
      (pcs.insertionSort fun a b => piece_le a b = true) 0
      (List.replicate space.height (List.replicate space.width none))
      space.width space.height [] with ⟨b, g2, s2⟩
  rw [hbt] at htrue
  cases b with
  | false => exact absurd htrue (by simp)
  | true => exact ⟨s2, rfl⟩

/-! ### Zero-count problem spaces -/

theorem build_placements_all_zero {entries : List (Nat × Nat)}
    {shapes : List Shape} {width height : Nat}
    (h : ∀ e ∈ entries, e.2 = 0) :
    build_placements entries shapes width height = .ok [] := by
  induction entries with
  | nil => rfl
  | cons e rest ih =>
    obtain ⟨si, c⟩ := e
    have hc : c = 0 := h (si, c) (by simp)
    subst hc
    have heq : build_placements ((si, 0) :: rest) shapes width height
        = build_placements rest shapes width height := rfl
    rw [heq]
    exact ih fun e he => h e (by simp [he])

theorem build_pieces_all_zero {entries : List (Nat × Nat)}
    {shapes : List Shape} (h : ∀ e ∈ entries, e.2 = 0) :
    build_pieces entries shapes = .ok [] := by
  induction entries with
  | nil => rfl
  | cons e rest ih =>
    obtain ⟨si, c⟩ := e
    have hc : c = 0 := h (si, c) (by simp)
    subst hc
    have heq : build_pieces ((si, 0) :: rest) shapes
        = build_pieces rest shapes := rfl
    rw [heq]
    exact ih fun e he => h e (by simp [he])

theorem instance_clauses_all_zero {counts : List Nat}
    {aps : List Placement} (h : ∀ e ∈ enumIdx 0 counts, e.2 = 0) :
    instance_clauses counts aps = [] := by
  unfold instance_clauses
  rw [List.flatMap_eq_nil_iff]
  intro e he
  rw [if_pos (h e he)]

theorem enumIdx_snd_mem {counts : List Nat} {e : Nat × Nat}
    (he : e ∈ enumIdx 0 counts) : e.2 ∈ counts := by
  rcases mem_enumIdx.mp he with ⟨k, hk, -, h2⟩
  rw [h2]
  exact List.getElem_mem hk

/-! ### The claims -/

/-- Claim C3: every Placement in the list returned by generate_placements
has all of its cells within board bounds, 0 ≤ x < width and 0 ≤ y < height;
a candidate translated cell set with any out-of-bounds cell is never
emitted. -/
theorem claim_C3_placement_bounds {shape : Shape} {inst width height : Nat}
    {p : Placement} (hp : p ∈ generate_placements shape inst width height) :
    ∀ c ∈ p.cells,
      0 ≤ c.x ∧ c.x < (width : Int) ∧ 0 ≤ c.y ∧ c.y < (height : Int) := by
  intro c hc
  exact in_bounds_iff.mp ((generate_placements_fields hp).2.2.2.2 c hc)

/-- Witness for C3: a concrete generated placement of a single-cell shape
on a 2×2 board, with its cells in bounds. -/
theorem claim_C3_witness :
    Placement.mk 0 0 1 1 [Coords.mk 1 1] ∈ generate_placements
      (Shape.mk 0 [['#', '.', '.'], ['.', '.', '.'], ['.', '.', '.']]) 0 2 2 ∧
    ∀ c ∈ (Placement.mk 0 0 1 1 [Coords.mk 1 1]).cells,
      0 ≤ c.x ∧ c.x < ((2 : Nat) : Int) ∧ 0 ≤ c.y ∧ c.y < ((2 : Nat) : Int) :=
  ⟨by decide, @claim_C3_placement_bounds
    (Shape.mk 0 [['#', '.', '.'], ['.', '.', '.'], ['.', '.', '.']]) 0 2 2
    (Placement.mk 0 0 1 1 [Coords.mk 1 1]) (by decide)⟩

/-- Claim C4: for every shape the set of distinct orientations has size at
least 1 and at most 8, and a fully symmetric shape (a single filled cell)
yields exactly 1 orientation. -/
theorem claim_C4_orientation_count_bound :
    (∀ s : Shape, 1 ≤ s.get_unique_transformations.length ∧
      s.get_unique_transformations.length ≤ 8) ∧
    (Shape.mk 0 [['#', '.', '.'], ['.', '.', '.'],
      ['.', '.', '.']]).get_unique_transformations.length = 1 :=
  ⟨fun s => ⟨gut_length_pos s, gut_length_le s⟩, by decide⟩

/-- Claim C5: at every search node where unplaced pieces remain, if the
number of still-empty cells is strictly smaller than the total cell
footprint of the remaining pieces (current one included),
backtrack_optimized fails this branch immediately — it returns false with
the state untouched, without enumerating any placements. -/
theorem claim_C5_pruning {piece : Piece} {rest : List Piece}
    {piece_idx : Nat} {grid : Grid} {width height : Nat}
    {solution : List Placement}
    (h : count_empty_cells grid < count_remaining_cells (piece :: rest)) :
    backtrack_optimized (piece :: rest) piece_idx grid width height solution
      = (false, grid, solution) := by
  simp only [backtrack_optimized]
  rw [if_pos h]

/-- Witness for C5: a single-cell piece on an already-full 1×1 board. -/
theorem claim_C5_witness :
    count_empty_cells [[some 0]] < count_remaining_cells
      [(0, 0, Shape.mk 0 [['#', '.', '.'], ['.', '.', '.'], ['.', '.', '.']])] ∧
    backtrack_optimized
      [(0, 0, Shape.mk 0 [['#', '.', '.'], ['.', '.', '.'], ['.', '.', '.']])]
      0 [[some 0]] 1 1 [] = (false, [[some 0]], []) :=
  ⟨by decide, claim_C5_pruning (by decide)⟩

/-- Claim C6: a shape with no filled cells yields exactly one orientation,
whose cell list is empty, and placement generation for it is degenerate:
one placement at every board offset (width × height placements in total),
each occupying no cells; neither the geometry layer nor the placement
generator rejects the zero-cell shape. -/
theorem claim_C6_empty_shape {s : Shape} (h : s.count_cells = 0)
    (inst width height : Nat) :
    s.get_unique_transformations = [[]] ∧
    (generate_placements s inst width height).length = width * height ∧
    ∀ p ∈ generate_placements s inst width height, p.cells = [] :=
  ⟨gut_of_no_cells h, (generate_placements_no_cells h).1,
    (generate_placements_no_cells h).2⟩

/-- Witness for C6: the all-empty 3×3 shape on a 2×3 board. -/
theorem claim_C6_witness :
    (Shape.mk 0 [['.', '.', '.'], ['.', '.', '.'],
      ['.', '.', '.']]).get_unique_transformations = [[]] ∧
    (generate_placements (Shape.mk 0 [['.', '.', '.'], ['.', '.', '.'],
      ['.', '.', '.']]) 0 2 3).length = 2 * 3 ∧
    ∀ p ∈ generate_placements (Shape.mk 0 [['.', '.', '.'], ['.', '.', '.'],
      ['.', '.', '.']]) 0 2 3, p.cells = [] :=
  claim_C6_empty_shape (by decide) 0 2 3

/-- Claim C9: the canonical orientation computation is pure and
deterministic up to order: two shapes with identical grids always yield
equal sets of normalized cell lists (order-independent equality), and the
orientation list is duplicate-free, so computing it twice on the same
shape yields the same set. -/
theorem claim_C9_orientation_determinism {s₁ s₂ : Shape}
    (h : s₁.grid = s₂.grid) :
    s₁.get_unique_transformations.toFinset
      = s₂.get_unique_transformations.toFinset ∧
    s₁.get_unique_transformations.Nodup := by
  have hg : s₁.get_unique_transformations = s₂.get_unique_transformations := by
    unfold Shape.get_unique_transformations Shape.get_cells
    rw [h]
  exact ⟨by rw [hg], gut_nodup s₁⟩

/-- Witness for C9: two shapes with the same grid but different ids. -/
theorem claim_C9_witness :
    (Shape.mk 0 [['#', '#', '.'], ['.', '#', '.'],
      ['.', '.', '.']]).get_unique_transformations.toFinset
      = (Shape.mk 7 [['#', '#', '.'], ['.', '#', '.'],
        ['.', '.', '.']]).get_unique_transformations.toFinset ∧
    (Shape.mk 0 [['#', '#', '.'], ['.', '#', '.'],
      ['.', '.', '.']]).get_unique_transformations.Nodup :=
  claim_C9_orientation_determinism (by decide)

/-- Claim C10: whenever backtrack_optimized returns false, the occupancy
grid and the accumulated solution vector are exactly as they were on entry
(every cell marked during the call has been cleared and every pushed
placement popped), so a failed solve leaves no residual search state. -/
theorem claim_C10_failed_search_restores_state {pieces : List Piece}
    {piece_idx : Nat} {grid : Grid} {width height : Nat}
    {solution : List Placement} (hok : grid_ok width height grid)
    (hfail : (backtrack_optimized pieces piece_idx grid width height
      solution).1 = false) :
    (backtrack_optimized pieces piece_idx grid width height solution).2
      = (grid, solution) :=
  backtrack_restore pieces piece_idx grid solution hok hfail

/-- Witness for C10: two single-cell pieces cannot fit a 1×1 board; the
failed search hands back the empty grid and empty solution. -/
theorem claim_C10_witness :
    grid_ok 1 1 [[none]] ∧
    (backtrack_optimized
      [(0, 0, Shape.mk 0 [['#', '.', '.'], ['.', '.', '.'], ['.', '.', '.']]),
       (0, 1, Shape.mk 0 [['#', '.', '.'], ['.', '.', '.'], ['.', '.', '.']])]
      0 [[none]] 1 1 []).1 = false ∧
    (backtrack_optimized
      [(0, 0, Shape.mk 0 [['#', '.', '.'], ['.', '.', '.'], ['.', '.', '.']]),
       (0, 1, Shape.mk 0 [['#', '.', '.'], ['.', '.', '.'], ['.', '.', '.']])]
      0 [[none]] 1 1 []).2 = ([[none]], []) :=
  ⟨⟨rfl, by decide⟩, by decide,
    claim_C10_failed_search_restores_state ⟨rfl, by decide⟩ (by decide)⟩

/-- Claim C8: a problem space whose shape_counts require zero instances of
every shape is trivially solvable: both solvers return Some of a Solution
with an empty placement set, for any board dimensions and any shape
list. -/
theorem claim_C8_zero_counts {shapes : List Shape} {space : ProblemSpace}
    (h : ∀ c ∈ space.shape_counts, c = 0) :
    solve_with_sat shapes space = .ok (some []) ∧
    solve_with_backtracking shapes space = .ok (some []) := by
  have hz : ∀ e ∈ enumIdx 0 space.shape_counts, e.2 = 0 :=
    fun e he => h e.2 (enumIdx_snd_mem he)
  constructor
  · have hba : build_placements (enumIdx 0 space.shape_counts) shapes
        space.width space.height = .ok [] := build_placements_all_zero hz
    rw [solve_with_sat_ok hba]
    have hform : sat_formula space.shape_counts [] = [] := by
      unfold sat_formula cell_clauses
      rw [instance_clauses_all_zero hz]
      rfl
    have hfind : (all_assignments ([] : List Placement).length).find?
        (fun a => evalFormula a (sat_formula space.shape_counts [])) = some [] := by
      rw [hform]
      rfl
    rw [hfind]
    rfl
  · have hbp : build_pieces (enumIdx 0 space.shape_counts) shapes = .ok [] :=
      build_pieces_all_zero hz
    rw [solve_bt_ok hbp]
    rfl

/-- Witness for C8: an all-zero count vector on a 2×3 board. -/
theorem claim_C8_witness :
    solve_with_sat [Shape.mk 0 [['#', '.', '.'], ['.', '.', '.'],
      ['.', '.', '.']]] (ProblemSpace.mk 2 3 [0, 0]) = .ok (some []) ∧
    solve_with_backtracking [Shape.mk 0 [['#', '.', '.'], ['.', '.', '.'],
      ['.', '.', '.']]] (ProblemSpace.mk 2 3 [0, 0]) = .ok (some []) :=
  claim_C8_zero_counts (by decide)

/-- Counterexample to claim C7 as stated: the problem space 1×1 with
shape_counts = [0] has index 0 referencing shape id 0, and no Shape with
id 0 exists in the (empty) shape list; yet both solvers return
Ok (Some []) — a Some outcome — instead of propagating an error, because
both skip the lookup entirely for a zero count. -/
theorem claim_C7_counterexample :
    (ProblemSpace.mk 1 1 [0]).shape_counts.length = 1 ∧
    (List.find? (fun t => t.id == 0) ([] : List Shape)) = none ∧
    solve_with_sat [] (ProblemSpace.mk 1 1 [0]) = .ok (some []) ∧
    solve_with_backtracking [] (ProblemSpace.mk 1 1 [0]) = .ok (some []) := by
  refine ⟨rfl, rfl, ?_, ?_⟩
  · decide
  · decide

/-- Claim C7 (amended): if a problem space requires a NONZERO number of
instances at an index with no defined Shape of that id, both solvers
propagate a descriptive failure (an error result) instead of attempting
partial solving; no Some or None outcome is produced. (Amendment forced by
the counterexample: an undefined shape id whose required count is zero is
skipped by both solvers, which then solve the rest of the instance
normally.) -/
theorem claim_C7_missing_shape {shapes : List Shape} {space : ProblemSpace}
    {si : Nat} (hsi : si < space.shape_counts.length)
    (hc : space.shape_counts.getD si 0 ≠ 0)
    (hfind : (shapes.find? fun t => t.id == si) = none) :
    (∃ e, solve_with_sat shapes space = .error e) ∧
    (∃ e, solve_with_backtracking shapes space = .error e) := by
  have hnok : ¬shapes_ok shapes (enumIdx 0 space.shape_counts) := by
    intro hok
    have hmem : ((si, space.shape_counts.getD si 0) : Nat × Nat)
        ∈ enumIdx 0 space.shape_counts := by
      refine mem_enumIdx.mpr ⟨si, hsi, by omega, ?_⟩
      rw [List.getD_eq_getElem?_getD, List.getElem?_eq_getElem hsi]
      rfl
    have := hok _ hmem hc
    rw [hfind] at this
    exact absurd this (by simp)
  constructor
  · rcases hba : build_placements (enumIdx 0 space.shape_counts) shapes
        space.width space.height with e | aps
    · exact ⟨e, solve_with_sat_error hba⟩
    · exact absurd (build_placements_ok_iff.mp ⟨aps, hba⟩) hnok
  · rcases hbp : build_pieces (enumIdx 0 space.shape_counts) shapes with e | pcs
    · exact ⟨e, solve_bt_error hbp⟩
    · exact absurd (build_pieces_ok_iff.mp ⟨pcs, hbp⟩) hnok

/-- Witness for the amended C7: shape id 0 is required twice but only a
shape with id 1 exists. -/
theorem claim_C7_missing_shape_witness :
    (∃ e, solve_with_sat [Shape.mk 1 [['#', '.', '.'], ['.', '.', '.'],
      ['.', '.', '.']]] (ProblemSpace.mk 1 1 [2]) = .error e) ∧
    (∃ e, solve_with_backtracking [Shape.mk 1 [['#', '.', '.'],
      ['.', '.', '.'], ['.', '.', '.']]] (ProblemSpace.mk 1 1 [2])
        = .error e) :=
  @claim_C7_missing_shape
    [Shape.mk 1 [['#', '.', '.'], ['.', '.', '.'], ['.', '.', '.']]]
    (ProblemSpace.mk 1 1 [2]) 0 (by decide) (by decide) (by decide)

/-- Claim C2: whenever either solver returns Some solution, the returned
placements are pairwise cell-disjoint, their number equals the sum of the
problem's shape_counts, and there is exactly one placement per required
(shape id, instance) pair. -/
theorem claim_C2_solution_valid {shapes : List Shape} {space : ProblemSpace}
    {sol : List Placement}
    (h : solve_with_sat shapes space = .ok (some sol) ∨
      solve_with_backtracking shapes space = .ok (some sol)) :
    ValidSolution space.shape_counts sol := by
  rcases h with h | h
  · rcases solve_with_sat_some_sound h with ⟨aps, a, hb, hsat, hsol⟩
    rw [hsol]
    exact (sat_extract_good hb hsat).2
  · rcases solve_bt_some_sound h with ⟨pcs, hb, ht⟩
    exact tiling_valid ht

/-- Witness for C2: the solution the SAT strategy returns for one
single-cell piece on a 1×1 board is valid. -/
theorem claim_C2_witness :
    ValidSolution [1] [Placement.mk 0 0 0 0 [Coords.mk 0 0]] :=
  @claim_C2_solution_valid
    [Shape.mk 0 [['#', '.', '.'], ['.', '.', '.'], ['.', '.', '.']]]
    (ProblemSpace.mk 1 1 [1]) [Placement.mk 0 0 0 0 [Coords.mk 0 0]]
    (Or.inl (by decide))

/-- Claim C1: for every input on which neither solver returns an error,
solve_with_sat returns Some iff solve_with_backtracking returns Some —
the two strategies agree on solvability, though the particular placements
chosen may differ. -/
theorem claim_C1_cross_strategy_agreement {shapes : List Shape}
    {space : ProblemSpace} {r₁ r₂ : Option (List Placement)}
    (h₁ : solve_with_sat shapes space = .ok r₁)
    (h₂ : solve_with_backtracking shapes space = .ok r₂) :
    r₁.isSome = true ↔ r₂.isSome = true := by
  constructor
  · intro hr₁
    rcases Option.isSome_iff_exists.mp hr₁ with ⟨s, hs⟩
    subst hs
    rcases solve_with_sat_some_sound h₁ with ⟨aps, a, hb, hsat, hsol⟩
    have ht : TilingOf shapes space s := by
      rw [hsol]
      exact (sat_extract_good hb hsat).1
    rcases hbp : build_pieces (enumIdx 0 space.shape_counts) shapes with e | pcs
    · rw [solve_bt_error hbp] at h₂
      exact absurd h₂ (by simp)
    · rcases solve_bt_some_of_tiling hbp ht with ⟨sol', hbt⟩
      rw [hbt] at h₂
      rw [(Except.ok.inj h₂).symm]
      rfl
  · intro hr₂
    rcases Option.isSome_iff_exists.mp hr₂ with ⟨l, hl⟩
    subst hl
    rcases solve_bt_some_sound h₂ with ⟨pcs, hbp, ht⟩
    rcases hba : build_placements (enumIdx 0 space.shape_counts) shapes
        space.width space.height with e | aps
    · rw [solve_with_sat_error hba] at h₁
      exact absurd h₁ (by simp)
    · rcases solve_with_sat_some_of_tiling hba ht with ⟨sol', hsat⟩
      rw [hsat] at h₁
      rw [(Except.ok.inj h₁).symm]
      rfl

/-- Witness for C1: one single-cell piece on a 1×1 board, where both
solvers return Some. -/
theorem claim_C1_witness :
    ((some [Placement.mk 0 0 0 0 [Coords.mk 0 0]] :
      Option (List Placement)).isSome = true) ↔
    ((some [Placement.mk 0 0 0 0 [Coords.mk 0 0]] :
      Option (List Placement)).isSome = true) :=
  @claim_C1_cross_strategy_agreement
    [Shape.mk 0 [['#', '.', '.'], ['.', '.', '.'], ['.', '.', '.']]]
    (ProblemSpace.mk 1 1 [1])
    (some [Placement.mk 0 0 0 0 [Coords.mk 0 0]])
    (some [Placement.mk 0 0 0 0 [Coords.mk 0 0]])
    (by decide) (by decide)
